import Mathlib

/-!
Verification of the entangled 0.1 Kademlia DHT node against its
natural-language specification.

The Python source is shallowly embedded: a Python 2 `str` (a byte string)
becomes `List Nat`, pure functions become Lean functions, raised
exceptions become `Option`/dedicated result constructors, and the
stateful RPC tables become explicit state records.  Each definition's doc
comment names the source file and function it embeds.
-/

namespace Entangled

/-- A Python 2 `str`: a list of byte values. -/
abbrev PyStr := List Nat

/-- Byte values of the characters of a Lean string literal (ASCII). -/
def ascii (s : String) : PyStr := s.data.map Char.toNat

/-- Python slice `data[a:b]` for `0 ≤ a ≤ b` (clamping at the end of the
string exactly as Python slices do). -/
def pySlice (data : PyStr) (a b : Nat) : PyStr := (data.drop a).take (b - a)

/-- Python dict assignment `d[k] = v` on an association-list model of a
dict: replace the value of the first entry carrying the key, or append a
new entry at the end (Python 2 dicts are unordered; the list order is
only a representation artifact). -/
def pySet {κ α : Type} [DecidableEq κ] : List (κ × α) → κ → α → List (κ × α)
  | [], k, v => [(k, v)]
  | e :: rest, k, v => if e.1 = k then (k, v) :: rest else e :: pySet rest k v

/-- Python dict lookup `d[k]` / `d.get(k)` on the association-list model. -/
def pyGet {κ α : Type} [DecidableEq κ] : List (κ × α) → κ → Option α
  | [], _ => none
  | e :: rest, k => if e.1 = k then some e.2 else pyGet rest k

/-- Python `del d[k]` on the association-list model: drop the first entry
carrying the key. -/
def pyDel {κ α : Type} [DecidableEq κ] : List (κ × α) → κ → List (κ × α)
  | [], _ => []
  | e :: rest, k => if e.1 = k then rest else e :: pyDel rest k

/-- Fuel-driven helper for `natDigits`; structural recursion on the fuel
keeps the definition kernel-reducible, and fuel `n + 1` always
suffices since the argument shrinks by a factor of ten each step. -/
def natDigitsAux : Nat → Nat → PyStr
  | 0, _ => []
  | fuel + 1, n =>
    if n < 10 then [48 + n]
    else natDigitsAux fuel (n / 10) ++ [48 + n % 10]

/-- Decimal ASCII digits of a natural number, most significant first
(Python `'%d' % n` for `n ≥ 0`). -/
def natDigits (n : Nat) : PyStr := natDigitsAux (n + 1) n

/-- Decimal ASCII rendering of an integer (Python `'%d' % n`). -/
def intDigits (n : Int) : PyStr :=
  if n < 0 then 45 :: natDigits (-n).toNat else natDigits n.toNat

/-- Running-accumulator helper for `digitsVal`. -/
def digitsValAux : PyStr → Nat → Option Nat
  | [], acc => some acc
  | c :: rest, acc =>
    if 48 ≤ c ∧ c ≤ 57 then digitsValAux rest (acc * 10 + (c - 48)) else none

/-- Value of a nonempty all-digit byte string; `none` otherwise.  This
models Python `int()` on the strings the Bencode decoder slices out of
well-formed input (Python raises `ValueError` on anything else, which the
decoder does not catch). -/
def digitsVal (s : PyStr) : Option Nat :=
  if s.isEmpty then none else digitsValAux s 0

/-- Python `int()` restricted to an optional leading minus sign followed
by decimal digits; any other input raises `ValueError`, modelled `none`. -/
def parseInt : PyStr → Option Int
  | 45 :: rest => (digitsVal rest).map (fun n => -(n : Int))
  | s => (digitsVal s).map (fun n => (n : Int))

/-- Index of the first occurrence of byte `c` in a byte string (Python
`str.find`); `none` for the `-1` result. -/
def findIdxFrom (c : Nat) : PyStr → Option Nat
  | [] => none
  | b :: rest => if b = c then some 0 else (findIdxFrom c rest).map (fun i => i + 1)

/-- Absolute index of the first occurrence of byte `c` at or after
`start`: Python `data[start:].find(c) + start`.  `none` models the
`find` result `-1`, after which the Python decoder's arithmetic feeds
garbage slices to `int()` and raises. -/
def findFrom (data : PyStr) (c : Nat) (start : Nat) : Option Nat :=
  (findIdxFrom c (data.drop start)).map (fun i => i + start)

namespace Bencode

/-- The message primitives handled by `encoding.Bencode` (file
src/entangled/entangled/kademlia/encoding.py): integers, byte strings,
lists, and dicts with byte-string keys.  A Python dict is represented by
an association list of its entries. -/
inductive BValue where
  | int (n : Int)
  | str (s : PyStr)
  | list (xs : List BValue)
  | dict (kvs : List (PyStr × BValue))

mutual
/-- Structural boolean equality on `BValue` (used to build the decidable
equality instance; nested inductives do not support deriving here). -/
def bvalBeq : BValue → BValue → Bool
  | .int a, .int b => a == b
  | .str a, .str b => a == b
  | .list a, .list b => bvalListBeq a b
  | .dict a, .dict b => bvalDictBeq a b
  | _, _ => false

/-- Elementwise `bvalBeq` on lists of values. -/
def bvalListBeq : List BValue → List BValue → Bool
  | [], [] => true
  | x :: xs, y :: ys => bvalBeq x y && bvalListBeq xs ys
  | _, _ => false

/-- Elementwise `bvalBeq` on dict entry lists. -/
def bvalDictBeq : List (PyStr × BValue) → List (PyStr × BValue) → Bool
  | [], [] => true
  | e :: r1, f :: r2 => e.1 == f.1 && bvalBeq e.2 f.2 && bvalDictBeq r1 r2
  | _, _ => false
end

mutual
/-- Soundness of `bvalBeq`. -/
def bvalBeq_eq : ∀ a b : BValue, bvalBeq a b = true → a = b
  | .int a, .int b, h => by simp only [bvalBeq, beq_iff_eq] at h; rw [h]
  | .str a, .str b, h => by simp only [bvalBeq, beq_iff_eq] at h; rw [h]
  | .list xs, .list ys, h =>
    congrArg BValue.list (bvalListBeq_eq xs ys (by simpa [bvalBeq] using h))
  | .dict xs, .dict ys, h =>
    congrArg BValue.dict (bvalDictBeq_eq xs ys (by simpa [bvalBeq] using h))
  | .int _, .str _, h => by simp [bvalBeq] at h
  | .int _, .list _, h => by simp [bvalBeq] at h
  | .int _, .dict _, h => by simp [bvalBeq] at h
  | .str _, .int _, h => by simp [bvalBeq] at h
  | .str _, .list _, h => by simp [bvalBeq] at h
  | .str _, .dict _, h => by simp [bvalBeq] at h
  | .list _, .int _, h => by simp [bvalBeq] at h
  | .list _, .str _, h => by simp [bvalBeq] at h
  | .list _, .dict _, h => by simp [bvalBeq] at h
  | .dict _, .int _, h => by simp [bvalBeq] at h
  | .dict _, .str _, h => by simp [bvalBeq] at h
  | .dict _, .list _, h => by simp [bvalBeq] at h

/-- Soundness of `bvalListBeq`. -/
def bvalListBeq_eq : ∀ a b : List BValue, bvalListBeq a b = true → a = b
  | [], [], _ => rfl
  | x :: xs, y :: ys, h =>
    have hp : bvalBeq x y = true ∧ bvalListBeq xs ys = true := by
      simpa [bvalListBeq, Bool.and_eq_true] using h
    have h1 := bvalBeq_eq x y hp.1
    have h2 := bvalListBeq_eq xs ys hp.2
    by rw [h1, h2]
  | [], _ :: _, h => by simp [bvalListBeq] at h
  | _ :: _, [], h => by simp [bvalListBeq] at h

/-- Soundness of `bvalDictBeq`. -/
def bvalDictBeq_eq : ∀ a b : List (PyStr × BValue), bvalDictBeq a b = true → a = b
  | [], [], _ => rfl
  | e :: r1, f :: r2, h =>
    have hp : (e.1 == f.1 && bvalBeq e.2 f.2) = true ∧ bvalDictBeq r1 r2 = true := by
      simpa [bvalDictBeq, Bool.and_eq_true, and_assoc] using h
    have hk : e.1 = f.1 := by
      have := (Bool.and_eq_true _ _).mp hp.1
      simpa [beq_iff_eq] using this.1
    have hv : e.2 = f.2 := bvalBeq_eq e.2 f.2 ((Bool.and_eq_true _ _).mp hp.1).2
    have h2 := bvalDictBeq_eq r1 r2 hp.2
    by
      have he : e = f := Prod.ext hk hv
      rw [he, h2]
  | [], _ :: _, h => by simp [bvalDictBeq] at h
  | _ :: _, [], h => by simp [bvalDictBeq] at h
end

mutual
/-- Reflexivity of `bvalBeq`. -/
def bvalBeq_refl : ∀ a : BValue, bvalBeq a a = true
  | .int a => by simp [bvalBeq]
  | .str a => by simp [bvalBeq]
  | .list xs => by simpa [bvalBeq] using bvalListBeq_refl xs
  | .dict xs => by simpa [bvalBeq] using bvalDictBeq_refl xs

/-- Reflexivity of `bvalListBeq`. -/
def bvalListBeq_refl : ∀ a : List BValue, bvalListBeq a a = true
  | [] => rfl
  | x :: xs =>
    have h1 := bvalBeq_refl x
    have h2 := bvalListBeq_refl xs
    by simp [bvalListBeq, h1, h2]

/-- Reflexivity of `bvalDictBeq`. -/
def bvalDictBeq_refl : ∀ a : List (PyStr × BValue), bvalDictBeq a a = true
  | [] => rfl
  | e :: r =>
    have h1 := bvalBeq_refl e.2
    have h2 := bvalDictBeq_refl r
    by simp [bvalDictBeq, h1, h2]
end

instance : DecidableEq BValue := fun a b =>
  if h : bvalBeq a b = true then isTrue (bvalBeq_eq a b h)
  else isFalse (fun hh => h (hh ▸ bvalBeq_refl a))

/-- Lexicographic byte-order comparison of Python 2 byte strings
(the order `keys.sort()` uses in `Bencode.encode`). -/
def pyLe : PyStr → PyStr → Bool
  | [], _ => true
  | _ :: _, [] => false
  | a :: as, b :: bs => if a < b then true else if a = b then pyLe as bs else false

/-- One insertion step of the insertion sort on (key, encoded-entry)
pairs, ordered by key. -/
def insortPair (p : PyStr × PyStr) : List (PyStr × PyStr) → List (PyStr × PyStr)
  | [] => [p]
  | q :: rest => if pyLe p.1 q.1 then p :: q :: rest else q :: insortPair p rest

/-- Sort (key, encoded-entry) pairs by ascending key byte order.  This
models `keys.sort()` in `Bencode.encode`: with the distinct keys of a
Python dict, sorting the keys and then encoding each entry emits the same
bytes as encoding each entry and then sorting the results by key. -/
def sortPairsByKey : List (PyStr × PyStr) → List (PyStr × PyStr)
  | [] => []
  | p :: rest => insortPair p (sortPairsByKey rest)

/-- Concatenation of the encoded (key ++ value) fragments of a dict. -/
def joinPairs : List (PyStr × PyStr) → PyStr
  | [] => []
  | p :: rest => p.2 ++ joinPairs rest

mutual
/-- Source: encoding.py, `Bencode.encode`.  Integers render as
`i<decimal>e`, byte strings as `<len>:<bytes>`, lists as `l<items>e` and
dicts as `d<key><value>...e` with entries emitted in ascending key byte
order (`keys.sort()`).  In `encodePairs` the recursive
`self.encode(key)` call is inlined as the string case, and the emitted
entries are sorted by key afterwards, which is byte-for-byte what the
source produces on a dict (whose keys are distinct). -/
def encode : BValue → PyStr
  | .int n => 105 :: (intDigits n ++ [101])
  | .str s => natDigits s.length ++ (58 :: s)
  | .list xs => 108 :: (encodeItems xs ++ [101])
  | .dict kvs => 100 :: (joinPairs (sortPairsByKey (encodePairs kvs)) ++ [101])

/-- Encoded concatenation of the items of a list value (the loop over
`data` in the list branch of `Bencode.encode`). -/
def encodeItems : List BValue → PyStr
  | [] => []
  | x :: xs => encode x ++ encodeItems xs

/-- Encoded `(key, key ++ value)` pairs of a dict value (the loop over
the sorted keys in the dict branch of `Bencode.encode`). -/
def encodePairs : List (PyStr × BValue) → List (PyStr × PyStr)
  | [] => []
  | kv :: rest =>
    (kv.1, (natDigits kv.1.length ++ (58 :: kv.1)) ++ encode kv.2) :: encodePairs rest
end

mutual
/-- Source: encoding.py, `Bencode._decodeRecursive`.  The fuel argument
is a modelling device only: each recursive call of the Python code
strictly advances `startIndex`, so the fuel `2 * data.length + 2` used by
`decode` is never exhausted on a terminating run.  `data.get? start`
models the Python indexing `data[startIndex]` (out of range raises).
Note the dict branch of the source returns `(decodedDict, startIndex)`
without stepping over the closing `e` marker; `decodeDictLoop` reproduces
that faithfully. -/
def decodeRec : Nat → PyStr → Nat → Option (BValue × Nat)
  | 0, _, _ => none
  | fuel + 1, data, start =>
    match data.get? start with
    | none => none
    | some c =>
      if c = 105 then
        match findFrom data 101 start with
        | none => none
        | some endPos =>
          match parseInt (pySlice data (start + 1) endPos) with
          | none => none
          | some n => some (.int n, endPos + 1)
      else if c = 108 then
        match decodeListLoop fuel data (start + 1) [] with
        | none => none
        | some (xs, i) => some (.list xs, i)
      else if c = 100 then
        match decodeDictLoop fuel data (start + 1) [] with
        | none => none
        | some (kvs, i) => some (.dict kvs, i)
      else
        match findFrom data 58 start with
        | none => none
        | some splitPos =>
          match digitsVal (pySlice data start splitPos) with
          | none => none
          | some len =>
            some (.str (pySlice data (splitPos + 1) (splitPos + 1 + len)),
                  splitPos + 1 + len)

/-- The `while data[startIndex] != 'e'` loop of the list branch of
`Bencode._decodeRecursive`; on the closing marker it returns the index
one past the `e`. -/
def decodeListLoop : Nat → PyStr → Nat → List BValue → Option (List BValue × Nat)
  | 0, _, _, _ => none
  | fuel + 1, data, idx, acc =>
    match data.get? idx with
    | none => none
    | some c =>
      if c = 101 then some (acc, idx + 1)
      else
        match decodeRec fuel data idx with
        | none => none
        | some (v, idx1) => decodeListLoop fuel data idx1 (acc ++ [v])

/-- The `while data[startIndex] != 'e'` loop of the dict branch of
`Bencode._decodeRecursive`.  The source returns `(decodedDict,
startIndex)` on the closing marker, leaving the index ON the `e` rather
than past it; that off-by-one is preserved here.  A decoded key that is
not a byte string cannot be a key of our dict representation and is
treated as malformed (the encoder only emits byte-string keys for the
message primitives under verification). -/
def decodeDictLoop : Nat → PyStr → Nat → List (PyStr × BValue) →
    Option (List (PyStr × BValue) × Nat)
  | 0, _, _, _ => none
  | fuel + 1, data, idx, acc =>
    match data.get? idx with
    | none => none
    | some c =>
      if c = 101 then some (acc, idx)
      else
        match decodeRec fuel data idx with
        | none => none
        | some (k, idx1) =>
          match k with
          | .str ks =>
            match decodeRec fuel data idx1 with
            | none => none
            | some (v, idx2) => decodeDictLoop fuel data idx2 (pySet acc ks v)
          | _ => none
end

/-- Source: encoding.py, `Bencode.decode`: run the recursive decoder at
index 0 and keep only the decoded value (`[0]` of the returned pair). -/
def decode (data : PyStr) : Option BValue :=
  (decodeRec (2 * data.length + 2) data 0).map Prod.fst

end Bencode

namespace constants

/-- Modelled from the spec: constants.py is not under src/.  Section 6 of
the spec fixes `MTU_payload = 8192 − 26`, so the maximum UDP datagram
size used by the protocol is 8192. -/
def udpDatagramMaxSize : Nat := 8192

/-- Modelled from the spec: constants.py is not under src/.  Section 6 of
the spec fixes the bucket capacity k = 8. -/
def k : Nat := 8

/-- Modelled from the spec: constants.py is not under src/.  Section 6 of
the spec fixes the RPC timeout at about 5 seconds. -/
def rpcTimeout : Nat := 5

end constants

namespace Proto

/-- Source: protocol.py (fragmenting version), class attribute
`msgSizeLimit = constants.udpDatagramMaxSize-26`: the largest payload
carried by a single datagram. -/
def msgSizeLimit : Nat := constants.udpDatagramMaxSize - 26

/-- Python 2 `chr`: the one-character string of a byte value; raises
`ValueError` (modelled `none`) when the argument is not in range(256). -/
def chr (n : Nat) : Option Nat :=
  if n < 256 then some n else none

/-- Source: protocol.py, `_send`: `totalPackets = len(data) / self.msgSizeLimit`
rounded up by one when a remainder exists. -/
def totalPacketsFor (len limit : Nat) : Nat :=
  len / limit + (if len % limit > 0 then 1 else 0)

/-- Source: protocol.py, `_send`: the `while seqNumber < totalPackets`
loop.  The argument `rem` counts the remaining iterations
(`totalPackets - seqNumber`); each packet is
`'\x00' + encTotalPackets + encSeqNumber + rpcID + '\x00' + data[startPos:startPos+limit]`
with `encSeqNumber = chr(seqNumber >> 8) + chr(seqNumber & 0xff)` and
`startPos = seqNumber * limit`. -/
def fragLoop (data rpcID encTot : PyStr) (limit : Nat) : Nat → Nat → Option (List PyStr)
  | 0, _ => some []
  | rem + 1, seq =>
    match chr (seq >>> 8) with
    | none => none
    | some hi =>
      match chr (seq % 256) with
      | none => none
      | some lo =>
        match fragLoop data rpcID encTot limit rem (seq + 1) with
        | none => none
        | some rest =>
          some ((0 :: (encTot ++ hi :: lo :: (rpcID ++ 0 :: ((data.drop (seq * limit)).take limit)))) :: rest)

/-- Source: protocol.py, `_send(data, rpcID, address)` of the fragmenting
protocol (lines 153-180): payloads larger than `msgSizeLimit` are split
into `totalPackets` headed fragments, smaller ones are written as a
single datagram.  The returned list holds the datagrams written to the
transport, in transmission order; `none` models the `ValueError` that
Python 2 `chr` raises when a fragment count or sequence number does not
fit one byte after the `>> 8` split. -/
def send (data rpcID : PyStr) : Option (List PyStr) :=
  if data.length > msgSizeLimit then
    match chr (totalPacketsFor data.length msgSizeLimit >>> 8) with
    | none => none
    | some thi =>
      match chr (totalPacketsFor data.length msgSizeLimit % 256) with
      | none => none
      | some tlo =>
        fragLoop data rpcID [thi, tlo] msgSizeLimit
          (totalPacketsFor data.length msgSizeLimit) 0
  else some [data]

/-- The fragment datagram with sequence number `i` of a transmission of
`data` under rpc-id `rid` split into `tp` fragments, exactly as `_send`
lays it out: byte 0 is the `0x00` marker, bytes 1-2 the total fragment
count big-endian, bytes 3-4 the sequence number big-endian, bytes 5-24
the rpc-id, byte 25 the `0x00` marker, bytes 26 onward the payload
slice `data[i*msgSizeLimit : (i+1)*msgSizeLimit]`. -/
def mkPacket (data rid : PyStr) (tp i : Nat) : PyStr :=
  0 :: (tp >>> 8) :: (tp % 256) :: (i >>> 8) :: (i % 256) ::
    (rid ++ 0 :: ((data.drop (i * msgSizeLimit)).take msgSizeLimit))

/-- The receiver's `_partialMessages` table: rpc-id to the per-sequence
map of buffered fragment payloads. -/
abbrev PMTable := List (PyStr × List (Nat × PyStr))

/-- Python `list.sort()` on the integer sequence numbers: ascending
order. -/
def sortNat (l : List Nat) : List Nat := l.insertionSort (· ≤ ·)

/-- Source: protocol.py, `datagramReceived` (lines 80-106), up to the
point where a complete datagram is handed to the decoder.  A datagram
whose bytes 0 and 25 are both `0x00` is a fragment: its payload is
buffered under (rpc-id, sequence number); when the number of buffered
sequence numbers reaches the advertised total, the payloads are
concatenated in ascending sequence order, the rpc-id's buffer entry is
deleted, and the concatenation is returned for decoding.  Any other
datagram is returned whole.  The result is `(new table, datagram to
decode if any)`; `none` models the `IndexError` of `datagram[0]` or
`datagram[25]` on a too-short datagram. -/
def recvDatagram (t : PMTable) (d : PyStr) : Option (PMTable × Option PyStr) :=
  match d.get? 0 with
  | none => none
  | some b0 =>
    if b0 = 0 then
      match d.get? 25 with
      | none => none
      | some b25 =>
        if b25 = 0 then
          let total := 256 * d.getD 1 0 + d.getD 2 0
          let msgID := (d.drop 5).take 20
          let seq := 256 * d.getD 3 0 + d.getD 4 0
          let inner1 := pySet ((pyGet t msgID).getD []) seq (d.drop 26)
          let t1 := pySet t msgID inner1
          if inner1.length = total then
            some (pyDel t1 msgID,
                  some (((sortNat (inner1.map Prod.fst)).map
                          (fun s => (pyGet inner1 s).getD [])).flatten))
          else some (t1, none)
        else some (t, some d)
    else some (t, some d)

/-- Deliver a sequence of datagrams to `recvDatagram` one after the
other, collecting for each datagram the complete message (if any) that
its arrival released for decoding. -/
def recvSeq (t : PMTable) : List PyStr → Option (PMTable × List (Option PyStr))
  | [] => some (t, [])
  | d :: rest =>
    match recvDatagram t d with
    | none => none
    | some (t1, r) =>
      match recvSeq t1 rest with
      | none => none
      | some (t2, outs) => some (t2, r :: outs)

/-- A reply datagram produced by `_handleRPC`: either a response
(`_sendResponse`) or an error (`_sendError`, carrying the exception type
and message). -/
inductive Reply where
  | response (result : Bencode.BValue)
  | error (excType excMsg : PyStr)
deriving DecidableEq

/-- An attribute of the node object as `_handleRPC` sees it: whether it
carries the `rpcmethod` marker (set by the rpcmethod decorator on the
node's exposed RPC methods), and the outcome of calling it; a raised
exception is modelled as `.error (type, message)`. -/
structure NodeMethod where
  rpcmethodFlag : Bool
  run : List Bencode.BValue → Except (PyStr × PyStr) Bencode.BValue

/-- Source: protocol.py, `_handleRPC` (lines 200-230) together with
`_sendError` (lines 191-198): look the method name up on the node
(`getattr`); if it is a callable carrying the `rpcmethod` marker, call
it and reply with the result (or with the raised exception); otherwise
reply with the error `AttributeError('Invalid method: %s' % method)`.
The spec's `InvalidMethod` error kind is exactly this reply. -/
def handleRPC (node : List (PyStr × NodeMethod)) (method : PyStr)
    (args : List Bencode.BValue) : Reply :=
  match pyGet node method with
  | some f =>
    if f.rpcmethodFlag then
      match f.run args with
      | .ok result => .response result
      | .error e => .error e.1 e.2
    else .error (ascii "exceptions.AttributeError") (ascii "Invalid method: " ++ method)
  | none => .error (ascii "exceptions.AttributeError") (ascii "Invalid method: " ++ method)

/-- Modelled from the spec: node.py is not under src/.  Section 4.6
lists the node's four exposed server methods, each carrying the
rpcmethod marker; the handler bodies are irrelevant to dispatch and are
stubbed with a fixed result. -/
def specNode : List (PyStr × NodeMethod) :=
  [(ascii "ping", ⟨true, fun _ => .ok (.int 0)⟩),
   (ascii "store", ⟨true, fun _ => .ok (.int 0)⟩),
   (ascii "findNode", ⟨true, fun _ => .ok (.int 0)⟩),
   (ascii "findValue", ⟨true, fun _ => .ok (.int 0)⟩)]

/-- Modelled from the spec: msgformat.py and msgtypes.py are not under
src/.  Section 6 of the spec: a request message is encoded as a mapping
with keys `rpc_id`, `sender_id`, `method`, `args`; the association list
is kept in the ascending key byte order the encoder emits
(args < method < rpc_id < sender_id). -/
def requestToPrimitive (rpcID senderID method : PyStr)
    (args : List Bencode.BValue) : Bencode.BValue :=
  .dict [(ascii "args", .list args), (ascii "method", .str method),
         (ascii "rpc_id", .str rpcID), (ascii "sender_id", .str senderID)]

/-- The externally observable outcome of one `sendRPC` call: the
datagrams written to the transport with their destination address, and
the updated `_sentMessages` table (each entry also owns a deferred and a
fresh `rpcTimeout` timer; only the keyed contact id is observable
state). -/
structure SendRPCResult where
  datagrams : List (PyStr × (PyStr × Nat))
  sentMessages : List (PyStr × PyStr)
deriving DecidableEq

/-- Source: src/entangled/kademlia/protocol.py, `KademliaProtocol.sendRPC`
(non-fragmenting version, lines 33-72): encode the request, write the
encoded message as one datagram to `(contact.address, contact.port)`,
and register `_sentMessages[msg.id] = (contact.id, df, timeoutCall)`.
The randomly generated `msg.id` is passed explicitly as `rpcID`. -/
def sendRPCold (sent : List (PyStr × PyStr)) (nodeID contactID host : PyStr)
    (port : Nat) (method : PyStr) (args : List Bencode.BValue)
    (rpcID : PyStr) : SendRPCResult :=
  let encodedMsg := Bencode.encode (requestToPrimitive rpcID nodeID method args)
  { datagrams := [(encodedMsg, (host, port))]
    sentMessages := pySet sent rpcID contactID }

/-- Source: src/entangled/entangled/kademlia/protocol.py,
`KademliaProtocol.sendRPC` (fragmenting version, lines 37-78): identical
to the non-fragmenting version except that transmission goes through
`_send`, which fragments payloads above `msgSizeLimit`. -/
def sendRPCnew (sent : List (PyStr × PyStr)) (nodeID contactID host : PyStr)
    (port : Nat) (method : PyStr) (args : List Bencode.BValue)
    (rpcID : PyStr) : Option SendRPCResult :=
  let encodedMsg := Bencode.encode (requestToPrimitive rpcID nodeID method args)
  match send encodedMsg rpcID with
  | none => none
  | some ds =>
    some { datagrams := ds.map (fun d => (d, (host, port)))
           sentMessages := pySet sent rpcID contactID }

/-- The RPC layer's observable pending state: the `_sentMessages` table
(rpc-id to remote contact id; each live entry also owns a deferred and
its one live timeout timer) and the set of rpc-ids with buffered
fragments in `_partialMessages`. -/
structure ProtoState where
  sentMessages : List (PyStr × PyStr)
  partialKeys : List PyStr
deriving DecidableEq

/-- The observable side effects of the response / timeout handlers. -/
inductive RpcAction where
  | callLater (msgID : PyStr)
  | cancelTimer (msgID : PyStr)
  | removeContact (contactID : PyStr)
  | errbackTimeout (contactID : PyStr)
  | callbackResponse (msgID : PyStr)
deriving DecidableEq

/-- Source: protocol.py, `_msgTimeout` (lines 232-251): when the timer of
`messageID` fires, a missing entry only logs; an entry whose rpc-id still
has buffered fragments gets its timer reset (`reactor.callLater` again,
table entry rewritten unchanged); otherwise the entry is deleted, the
remote contact is removed from the routing table and the deferred fails
with `TimeoutError`. -/
def msgTimeout (s : ProtoState) (messageID : PyStr) : ProtoState × List RpcAction :=
  match pyGet s.sentMessages messageID with
  | some remoteContactID =>
    if messageID ∈ s.partialKeys then
      ({ s with sentMessages := pySet s.sentMessages messageID remoteContactID },
       [.callLater messageID])
    else
      ({ s with sentMessages := pyDel s.sentMessages messageID },
       [.removeContact remoteContactID, .errbackTimeout remoteContactID])
  | none => (s, [])

/-- Source: protocol.py, `datagramReceived`, the `ResponseMessage` branch
(lines 115-151): a response whose rpc-id has a pending entry cancels the
entry's timer, deletes the entry and fires the deferred; a response with
no pending entry is dropped silently (`pass`). -/
def responseReceived (s : ProtoState) (messageID : PyStr) : ProtoState × List RpcAction :=
  match pyGet s.sentMessages messageID with
  | some _ =>
    ({ s with sentMessages := pyDel s.sentMessages messageID },
     [.cancelTimer messageID, .callbackResponse messageID])
  | none => (s, [])

/-- The events that can touch a pending-RPC entry after it was
registered: a matching response arrives, the entry's timer fires, or
the fragment buffer changes (datagram arrivals and reassembly are
abstracted as an arbitrary rewrite of the set of buffered rpc-ids). -/
inductive RpcEvent where
  | respArrive (msgID : PyStr)
  | timerFire (msgID : PyStr)
  | setPartial (ids : List PyStr)
deriving DecidableEq

/-- State transition of one event. -/
def stepEvent (s : ProtoState) : RpcEvent → ProtoState
  | .respArrive i => (responseReceived s i).1
  | .timerFire i => (msgTimeout s i).1
  | .setPartial ids => { s with partialKeys := ids }

/-- Run a sequence of events. -/
def runEvents (s : ProtoState) : List RpcEvent → ProtoState
  | [] => s
  | e :: tr => runEvents (stepEvent s e) tr

/-- Validity of an event sequence: a timer can fire only for an rpc-id
whose entry is still pending.  This encodes the reactor's guarantee
visible in the source: each entry owns exactly one live timer
(`callLater` at send and at each reset), a response cancels the timer in
the same step that deletes the entry, and the final firing deletes the
entry, so no cancelled or consumed timer fires again. -/
def validEvents (s : ProtoState) : List RpcEvent → Bool
  | [] => true
  | e :: tr =>
    (match e with
     | .timerFire i => (pyGet s.sentMessages i).isSome
     | _ => true) && validEvents (stepEvent s e) tr

/-- Whether processing event `e` in state `s` removes the pending entry
of rpc-id `i`: a matching response with the entry present, or a firing
timer with the entry present and no buffered fragments. -/
def removesEntry (s : ProtoState) (e : RpcEvent) (i : PyStr) : Bool :=
  match e with
  | .respArrive j => decide (j = i) && (pyGet s.sentMessages i).isSome
  | .timerFire j =>
    decide (j = i) && (pyGet s.sentMessages i).isSome && decide (i ∉ s.partialKeys)
  | .setPartial _ => false

/-- Number of events along a run that remove the pending entry of
rpc-id `i`. -/
def removedCount (s : ProtoState) (tr : List RpcEvent) (i : PyStr) : Nat :=
  match tr with
  | [] => 0
  | e :: rest => (if removesEntry s e i then 1 else 0) + removedCount (stepEvent s e) rest i

end Proto

namespace KBucket

/-- A remote peer descriptor as the k-bucket stores it.  contact.py is
not under src/; the fields follow §3 of the spec (last-seen recency is
carried by bucket position: least-recently-seen first). -/
structure Contact where
  id : PyStr
  address : PyStr
  port : Nat
deriving DecidableEq

/-- Modelled from the spec: contact.py is not under src/ and §3 states
"Equality is by `id` alone".  This is the equality Python's `in`,
`index` and `remove` use on the bucket's contact list. -/
def contactEq (a b : Contact) : Bool := a.id == b.id

/-- Result of `KBucket.addContact`: the updated contact list, or the
`BucketFull` signal the method raises. -/
inductive AddResult where
  | ok (contacts : List Contact)
  | bucketFull
deriving DecidableEq

/-- Source: kbucket.py, `KBucket.addContact` (lines 23-41): a contact
already present (by id) is moved to the tail (the stored object is
popped at its index and re-appended); an absent contact is appended
while fewer than `constants.k` contacts are held; otherwise
`BucketFull` is raised. -/
def addContact (contacts : List Contact) (c : Contact) : AddResult :=
  match contacts.find? (fun x => contactEq x c) with
  | some old => .ok ((contacts.eraseP (fun x => contactEq x c)) ++ [old])
  | none =>
    if contacts.length < constants.k then .ok (contacts ++ [c]) else .bucketFull

/-- Result of `KBucket.getContacts`: the returned contact list, or the
`IndexError` the method raises. -/
inductive GetResult where
  | ok (contacts : List Contact)
  | indexError
deriving DecidableEq

/-- Source: kbucket.py, `KBucket.getContacts` (lines 48-96).  `count` is
a Python int: zero or negative means "all contacts".  When the requested
count exceeds `constants.k` the method raises
`IndexError('Count value too big adjusting to bucket size')` — the
`count = constants.k` assignment just before the raise is dead code.
Otherwise the first `count` contacts (all of them when fewer are held)
are returned, with the excluded contact removed from the result when
present (`if excludeContact in contactList: contactList.remove(...)`). -/
def getContacts (contacts : List Contact) (count : Int)
    (excludeContact : Option Contact) : GetResult :=
  let count1 : Int := if count ≤ 0 then contacts.length else count
  if count1 > (constants.k : Int) then .indexError
  else
    let contactList :=
      if contacts.length = 0 then []
      else if (contacts.length : Int) < count1 then contacts.take contacts.length
      else contacts.take count1.toNat
    match excludeContact with
    | some e => .ok (contactList.eraseP (fun x => contactEq x e))
    | none => .ok contactList

end KBucket

namespace DataStore

/-- Source: datastore.py, `DataStore.__setitem__` (line 38-39): always
`insert into data(key, value)` — a new row is appended to the table even
when the key already has rows; nothing is updated or deleted.  Values
are stored pickled; pickling round-trips, so the stored bytes are
modelled by the value itself. -/
def setItem (rows : List (PyStr × PyStr)) (key value : PyStr) : List (PyStr × PyStr) :=
  rows ++ [(key, value)]

/-- Source: datastore.py, `DataStore.__getitem__` (lines 28-36):
`select value from data where key=:reqKey` followed by `fetchone()`.
SQLite scans this unindexed in-memory table in rowid (insertion) order,
so the fetched row is the earliest inserted row with the key; when no
row matches, `fetchone()` gives `None`, `row[0]` raises `TypeError` and
the handler re-raises `KeyError` (modelled `none`). -/
def getItem (rows : List (PyStr × PyStr)) (key : PyStr) : Option PyStr :=
  (rows.find? (fun r => r.1 == key)).map (fun r => r.2)

end DataStore

/-! ## Helper lemmas about the Python dict model -/

theorem pyGet_pySet_self {κ α : Type} [DecidableEq κ] :
    ∀ (m : List (κ × α)) (k : κ) (v : α), pyGet (pySet m k v) k = some v := by
  intro m k v
  induction m with
  | nil => simp [pySet, pyGet]
  | cons e rest ih =>
    by_cases h : e.1 = k
    · simp [pySet, pyGet, h]
    · simp [pySet, pyGet, h, ih]

theorem pySet_of_pyGet_self {κ α : Type} [DecidableEq κ] :
    ∀ (m : List (κ × α)) (k : κ) (v : α), pyGet m k = some v → pySet m k v = m := by
  intro m k v h
  induction m with
  | nil => simp [pyGet] at h
  | cons e rest ih =>
    by_cases he : e.1 = k
    · simp only [pyGet, if_pos he] at h
      injection h with h
      simp only [pySet, if_pos he]
      exact congrArg (fun z => z :: rest) (by rw [← he, ← h])
    · simp [pyGet, he] at h
      simp [pySet, he, ih h]

theorem pyGet_eq_none_iff {κ α : Type} [DecidableEq κ] :
    ∀ (m : List (κ × α)) (k : κ), pyGet m k = none ↔ ∀ e ∈ m, e.1 ≠ k := by
  intro m k
  induction m with
  | nil => simp [pyGet]
  | cons e rest ih =>
    by_cases he : e.1 = k
    · simp [pyGet, he]
    · simp [pyGet, he, ih]

theorem pySet_append_of_absent {κ α : Type} [DecidableEq κ] :
    ∀ (m : List (κ × α)) (k : κ) (v : α), pyGet m k = none → pySet m k v = m ++ [(k, v)] := by
  intro m k v h
  induction m with
  | nil => simp [pySet]
  | cons e rest ih =>
    by_cases he : e.1 = k
    · simp [pyGet, he] at h
    · simp [pyGet, he] at h
      simp [pySet, he, ih h]

theorem pyDel_append_self {κ α : Type} [DecidableEq κ] :
    ∀ (m : List (κ × α)) (k : κ) (v : α), pyGet m k = none → pyDel (m ++ [(k, v)]) k = m := by
  intro m k v h
  induction m with
  | nil => simp [pyDel]
  | cons e rest ih =>
    by_cases he : e.1 = k
    · simp [pyGet, he] at h
    · simp [pyGet, he] at h
      simp [pyDel, he, ih h]

theorem pyGet_pyDel_self_of_nodup {κ α : Type} [DecidableEq κ] :
    ∀ (m : List (κ × α)) (k : κ), (m.map Prod.fst).Nodup →
      pyGet (pyDel m k) k = none := by
  intro m k hnd
  induction m with
  | nil => simp [pyDel, pyGet]
  | cons e rest ih =>
    simp only [List.map_cons, List.nodup_cons] at hnd
    by_cases he : e.1 = k
    · simp only [pyDel, if_pos he]
      rw [pyGet_eq_none_iff]
      intro f hf hfk
      exact hnd.1 (he ▸ hfk ▸ List.mem_map_of_mem Prod.fst hf)
    · simp [pyDel, he, pyGet, ih hnd.2]

theorem find?_append {α : Type} (p : α → Bool) :
    ∀ (l1 l2 : List α), (l1 ++ l2).find? p =
      match l1.find? p with
      | some a => some a
      | none => l2.find? p := by
  intro l1 l2
  induction l1 with
  | nil => simp
  | cons x xs ih =>
    by_cases hp : p x
    · simp [List.find?_cons_of_pos _ hp, hp]
    · simp [List.find?_cons_of_neg _ hp, hp, ih]

theorem perm_cons_eraseP_of_find? {α : Type} (p : α → Bool) :
    ∀ (l : List α) (a : α), l.find? p = some a → l.Perm (a :: l.eraseP p) := by
  intro l
  induction l with
  | nil => intro a h; simp at h
  | cons x xs ih =>
    intro a h
    by_cases hp : p x
    · rw [List.find?_cons_of_pos _ hp] at h
      injection h with h
      subst h
      rw [List.eraseP_cons_of_pos hp]
    · rw [List.find?_cons_of_neg _ hp] at h
      rw [List.eraseP_cons_of_neg hp]
      exact ((ih a h).cons x).trans (List.Perm.swap a x _)

/-! ## C1: Bencode round-trip -/

/-- C1: the spec claims that for every valid message primitive v,
`Bencode.decode(Bencode.encode(v))` equals v.  The claim is right and the
code is wrong: the dict branch of `_decodeRecursive` returns
`(decodedDict, startIndex)` with the index still ON the closing `e`
marker instead of one past it, so an enclosing list or dict stops at
that marker and silently drops every element following a nested dict.
Evaluating the code at the valid primitive `[{}, 1]` (encoded
`ldei1ee`) yields `[{}]`, not `[{}, 1]`. -/
theorem bencode_roundtrip_drops_after_nested_dict :
    Bencode.decode (Bencode.encode (Bencode.BValue.list [.dict [], .int 1]))
      = some (Bencode.BValue.list [.dict []]) ∧
    Bencode.BValue.list [.dict []] ≠ Bencode.BValue.list [.dict [], .int 1] :=
  ⟨by decide, by decide⟩

/-! ## C4 and C5: the k-bucket -/

/-- C4: `addContact` on a contact already present (by id) moves the
stored contact to the tail — the most-recently-seen position, which is
how the bucket tracks freshness (§3: bucket order is
least-recently-seen first) — keeping the same contacts and the same
length; on an absent contact it appends at the tail while fewer than k
contacts are held; with exactly k held it signals `BucketFull`, leaving
the bucket's contents unchanged. -/
theorem kbucket_addContact_spec :
    ∀ (b : List KBucket.Contact) (c : KBucket.Contact),
      (∀ old, b.find? (fun x => KBucket.contactEq x c) = some old →
        KBucket.addContact b c =
          .ok (b.eraseP (fun x => KBucket.contactEq x c) ++ [old]) ∧
        (b.eraseP (fun x => KBucket.contactEq x c) ++ [old]).Perm b ∧
        (b.eraseP (fun x => KBucket.contactEq x c) ++ [old]).length = b.length ∧
        old.id = c.id ∧
        (b.eraseP (fun x => KBucket.contactEq x c) ++ [old]).getLast? = some old) ∧
      (b.find? (fun x => KBucket.contactEq x c) = none → b.length < constants.k →
        KBucket.addContact b c = .ok (b ++ [c])) ∧
      (b.find? (fun x => KBucket.contactEq x c) = none → b.length = constants.k →
        KBucket.addContact b c = .bucketFull) := by
  intro b c
  refine ⟨?_, ?_, ?_⟩
  · intro old hf
    have hperm : (b.eraseP (fun x => KBucket.contactEq x c) ++ [old]).Perm b := by
      exact (List.perm_append_singleton old _).trans
        (perm_cons_eraseP_of_find? _ b old hf).symm
    have hid : old.id = c.id := by
      have := List.find?_some hf
      simpa [KBucket.contactEq] using this
    refine ⟨?_, hperm, hperm.length_eq, hid, ?_⟩
    · simp [KBucket.addContact, hf]
    · exact List.getLast?_concat _
  · intro hf hlen
    simp [KBucket.addContact, hf, hlen]
  · intro hf hlen
    simp [KBucket.addContact, hf, hlen]

/-- Witness for C4: concrete instances discharging the hypotheses of all
three cases. -/
theorem kbucket_addContact_spec_witness :
    (KBucket.addContact [⟨[1], [], 0⟩, ⟨[2], [], 0⟩] ⟨[1], [9], 9⟩ =
      .ok [⟨[2], [], 0⟩, ⟨[1], [], 0⟩]) ∧
    (KBucket.addContact [⟨[1], [], 0⟩] ⟨[2], [], 0⟩ =
      .ok [⟨[1], [], 0⟩, ⟨[2], [], 0⟩]) ∧
    (KBucket.addContact
      [⟨[1], [], 0⟩, ⟨[2], [], 0⟩, ⟨[3], [], 0⟩, ⟨[4], [], 0⟩,
       ⟨[5], [], 0⟩, ⟨[6], [], 0⟩, ⟨[7], [], 0⟩, ⟨[8], [], 0⟩] ⟨[9], [], 0⟩ =
      .bucketFull) := by
  refine ⟨?_, ?_, ?_⟩
  · have h := (kbucket_addContact_spec [⟨[1], [], 0⟩, ⟨[2], [], 0⟩] ⟨[1], [9], 9⟩).1
      ⟨[1], [], 0⟩ (by decide)
    calc KBucket.addContact [⟨[1], [], 0⟩, ⟨[2], [], 0⟩] ⟨[1], [9], 9⟩
        = .ok ([⟨[1], [], 0⟩, ⟨[2], [], 0⟩].eraseP
            (fun x => KBucket.contactEq x ⟨[1], [9], 9⟩) ++ [⟨[1], [], 0⟩]) := h.1
      _ = .ok [⟨[2], [], 0⟩, ⟨[1], [], 0⟩] := by decide
  · exact (kbucket_addContact_spec [⟨[1], [], 0⟩] ⟨[2], [], 0⟩).2.1 (by decide) (by decide)
  · exact (kbucket_addContact_spec _ ⟨[9], [], 0⟩).2.2 (by decide) (by decide)

/-- C5 counterexample: the claim says `getContacts(n, exclude?)` returns
the first `min(n, k, len)` contacts without raising for every `n > 0`,
including `n > k`; but for `n = 9 > k = 8` on a one-contact bucket the
source raises `IndexError` (the `count = constants.k` adjustment written
just before the raise is dead code), so nothing is returned. -/
theorem kbucket_getContacts_raises_above_k :
    KBucket.getContacts [⟨[1], [], 0⟩] 9 none = .indexError ∧
    ∀ l, KBucket.getContacts [⟨[1], [], 0⟩] 9 none ≠ .ok l := by
  have h : KBucket.getContacts [⟨[1], [], 0⟩] 9 none = .indexError := by decide
  exact ⟨h, fun l hl => by rw [h] at hl; exact KBucket.GetResult.noConfusion hl⟩

/-- C5 as amended: for every requested count `0 < n ≤ k`, `getContacts`
returns, without raising, the first `min(n, k, len)` contacts in current
bucket order with the optionally excluded contact discarded from the
result; for `n > k` it raises `IndexError` instead of returning. -/
theorem kbucket_getContacts_spec :
    ∀ (b : List KBucket.Contact) (n : Int) (ex : Option KBucket.Contact),
      0 < n →
      (n ≤ (constants.k : Int) →
        KBucket.getContacts b n ex =
          .ok (match ex with
            | some e => (b.take n.toNat).eraseP (fun x => KBucket.contactEq x e)
            | none => b.take n.toNat) ∧
        (b.take n.toNat).length = min n.toNat (min constants.k b.length)) ∧
      ((constants.k : Int) < n → KBucket.getContacts b n ex = .indexError) := by
  intro b n ex hn
  constructor
  · intro hk
    have hcl : (b.take n.toNat).length = min n.toNat (min constants.k b.length) := by
      rw [List.length_take]
      have hk8 : n.toNat ≤ constants.k := by
        simp only [constants.k] at hk ⊢
        omega
      omega
    refine ⟨?_, hcl⟩
    simp only [KBucket.getContacts]
    rw [if_neg (show ¬ n ≤ 0 by omega), if_neg (show ¬ n > (constants.k : Int) by omega)]
    have hlist :
        (if b.length = 0 then []
         else if (b.length : Int) < n then b.take b.length
         else b.take n.toNat) = b.take n.toNat := by
      by_cases h0 : b.length = 0
      · rw [if_pos h0]
        rw [List.length_eq_zero] at h0
        simp [h0]
      · rw [if_neg h0]
        by_cases hlt : (b.length : Int) < n
        · rw [if_pos hlt, List.take_length, List.take_of_length_le (by omega)]
        · rw [if_neg hlt]
    rw [hlist]
    cases ex <;> rfl
  · intro hk
    simp only [KBucket.getContacts]
    rw [if_neg (show ¬ n ≤ 0 by omega), if_pos (show n > (constants.k : Int) from hk)]

/-- Witness for C5's amended theorem: a two-contact bucket, count 1,
excluding the first contact. -/
theorem kbucket_getContacts_spec_witness :
    KBucket.getContacts [⟨[1], [], 0⟩, ⟨[2], [], 0⟩] 1 (some ⟨[1], [], 0⟩) = .ok [] := by
  have h := ((kbucket_getContacts_spec [⟨[1], [], 0⟩, ⟨[2], [], 0⟩] 1
    (some ⟨[1], [], 0⟩) (by decide)).1 (by decide)).1
  calc KBucket.getContacts [⟨[1], [], 0⟩, ⟨[2], [], 0⟩] 1 (some ⟨[1], [], 0⟩)
      = .ok (([⟨[1], [], 0⟩, ⟨[2], [], 0⟩].take (Int.toNat 1)).eraseP
          (fun x => KBucket.contactEq x ⟨[1], [], 0⟩)) := h
    _ = .ok [] := by decide

/-- C7: when the RPC timeout fires for a pending message id whose rpc-id
still has buffered fragments, the timer is reset once (one new
`callLater`, entry kept, nothing else happens); otherwise the pending
entry is deleted, the remote peer is removed from the routing table, and
the caller's deferred fails with `TimeoutError`. -/
theorem msgTimeout_spec :
    ∀ (s : Proto.ProtoState) (i cid : PyStr),
      pyGet s.sentMessages i = some cid →
      (i ∈ s.partialKeys →
        Proto.msgTimeout s i = (s, [Proto.RpcAction.callLater i])) ∧
      (i ∉ s.partialKeys →
        Proto.msgTimeout s i =
          ({ s with sentMessages := pyDel s.sentMessages i },
           [Proto.RpcAction.removeContact cid, Proto.RpcAction.errbackTimeout cid]) ∧
        ((s.sentMessages.map Prod.fst).Nodup →
          pyGet (pyDel s.sentMessages i) i = none)) := by
  intro s i cid h
  constructor
  · intro hp
    simp only [Proto.msgTimeout, h]
    rw [if_pos hp, pySet_of_pyGet_self _ _ _ h]
  · intro hp
    refine ⟨?_, fun hnd => pyGet_pyDel_self_of_nodup _ _ hnd⟩
    simp only [Proto.msgTimeout, h]
    rw [if_neg hp]

/-- Witness for C7: one pending entry, once with and once without a
buffered fragment for its rpc-id. -/
theorem msgTimeout_spec_witness :
    Proto.msgTimeout ⟨[([1], [2])], [[1]]⟩ [1]
      = (⟨[([1], [2])], [[1]]⟩, [Proto.RpcAction.callLater [1]]) ∧
    Proto.msgTimeout ⟨[([1], [2])], []⟩ [1]
      = (⟨[], []⟩, [Proto.RpcAction.removeContact [2], Proto.RpcAction.errbackTimeout [2]]) := by
  constructor
  · exact (msgTimeout_spec ⟨[([1], [2])], [[1]]⟩ [1] [2] (by decide)).1 (by decide)
  · have h := ((msgTimeout_spec ⟨[([1], [2])], []⟩ [1] [2] (by decide)).2 (by decide)).1
    calc Proto.msgTimeout ⟨[([1], [2])], []⟩ [1]
        = ({ Proto.ProtoState.mk [([1], [2])] [] with
              sentMessages := pyDel [([1], [2])] [1] },
           [Proto.RpcAction.removeContact [2], Proto.RpcAction.errbackTimeout [2]]) := h
      _ = (⟨[], []⟩, [Proto.RpcAction.removeContact [2], Proto.RpcAction.errbackTimeout [2]]) := by
          decide

/-- C8: a request whose method name is not one of the node's exposed RPC
methods (no such attribute, or an attribute without the `rpcmethod`
marker) is answered with the Error reply
`AttributeError('Invalid method: <method>')` — the spec's
`InvalidMethod` error kind. -/
theorem handleRPC_unknown_method :
    ∀ (node : List (PyStr × Proto.NodeMethod)) (method : PyStr)
      (args : List Bencode.BValue),
      (∀ f, pyGet node method = some f → f.rpcmethodFlag = false) →
      Proto.handleRPC node method args =
        .error (ascii "exceptions.AttributeError") (ascii "Invalid method: " ++ method) := by
  intro node method args h
  cases hg : pyGet node method with
  | none => simp [Proto.handleRPC, hg]
  | some f => simp [Proto.handleRPC, hg, h f hg]

/-- Witness for C8: the spec's node with its four exposed methods
receives the unknown method name `bogus`. -/
theorem handleRPC_unknown_method_witness :
    Proto.handleRPC Proto.specNode (ascii "bogus") [] =
      .error (ascii "exceptions.AttributeError") (ascii "Invalid method: " ++ ascii "bogus") :=
  handleRPC_unknown_method Proto.specNode (ascii "bogus") []
    (fun f hf => by
      have hnone : pyGet Proto.specNode (ascii "bogus") = (none : Option Proto.NodeMethod) := rfl
      rw [hnone] at hf
      cases hf)

/-- C9: for every contact, method and argument list whose encoded
request does not exceed `msgSizeLimit`, the fragmenting protocol's
`sendRPC` writes exactly the same single datagram to the same address
and registers the same pending-RPC entry as the non-fragmenting
protocol's `sendRPC`. -/
theorem sendRPC_below_limit_refines :
    ∀ (sent : List (PyStr × PyStr)) (nodeID contactID host : PyStr) (port : Nat)
      (method : PyStr) (args : List Bencode.BValue) (rpcID : PyStr),
      (Bencode.encode (Proto.requestToPrimitive rpcID nodeID method args)).length ≤
        Proto.msgSizeLimit →
      Proto.sendRPCnew sent nodeID contactID host port method args rpcID =
        some (Proto.sendRPCold sent nodeID contactID host port method args rpcID) := by
  intro sent nodeID contactID host port method args rpcID h
  simp only [Proto.sendRPCnew, Proto.sendRPCold, Proto.send]
  rw [if_neg (not_lt.mpr h)]
  rfl

/-- Witness for C9: a small concrete ping request. -/
theorem sendRPC_below_limit_refines_witness :
    Proto.sendRPCnew [] [1] [2] [3] 4 (ascii "ping") [] [5] =
      some (Proto.sendRPCold [] [1] [2] [3] 4 (ascii "ping") [] [5]) :=
  sendRPC_below_limit_refines [] [1] [2] [3] 4 (ascii "ping") [] [5] (by decide)

/-- C10: `__setitem__` always inserts a new row, even when the key is
already stored, and `__getitem__` returns the earliest inserted value
for the key: after `store[k] = v1; store[k] = v2` a lookup still gives
the value the key had before `v2` (in particular `v1` when `k` was
fresh), and a lookup of a never-stored key raises `KeyError`. -/
theorem datastore_insert_never_overwrites :
    ∀ (rows : List (PyStr × PyStr)) (k v1 v2 : PyStr),
      (DataStore.setItem rows k v1).length = rows.length + 1 ∧
      DataStore.getItem (DataStore.setItem (DataStore.setItem rows k v1) k v2) k
        = DataStore.getItem (DataStore.setItem rows k v1) k ∧
      (DataStore.getItem rows k = none →
        DataStore.getItem (DataStore.setItem (DataStore.setItem rows k v1) k v2) k
          = some v1) ∧
      (DataStore.getItem rows k = none ↔ ∀ e ∈ rows, e.1 ≠ k) := by
  intro rows k v1 v2
  have hp1 : (fun r : PyStr × PyStr => r.1 == k) (k, v1) = true := by simp
  refine ⟨by simp [DataStore.setItem], ?_, ?_, ?_⟩
  · cases hr : rows.find? (fun r => r.1 == k) with
    | none =>
      simp [DataStore.getItem, DataStore.setItem, find?_append, hr,
        List.find?_cons_of_pos _ hp1]
    | some e =>
      simp [DataStore.getItem, DataStore.setItem, find?_append, hr]
  · intro hnone
    have hfind : rows.find? (fun r => r.1 == k) = none := by
      cases hf : rows.find? (fun r => r.1 == k) with
      | none => rfl
      | some e => simp [DataStore.getItem, hf] at hnone
    simp [DataStore.getItem, DataStore.setItem, find?_append, hfind,
      List.find?_cons_of_pos _ hp1]
  · constructor
    · intro h e he
      cases hf : rows.find? (fun r => r.1 == k) with
      | none =>
        rw [List.find?_eq_none] at hf
        simpa using hf e he
      | some x => simp [DataStore.getItem, hf] at h
    · intro h
      have hf : rows.find? (fun r => r.1 == k) = none := by
        rw [List.find?_eq_none]
        intro x hx
        simpa using h x hx
      simp [DataStore.getItem, hf]

/-- Witness for C10: two inserts under a fresh key keep the first
value. -/
theorem datastore_insert_never_overwrites_witness :
    DataStore.getItem (DataStore.setItem (DataStore.setItem [] [1] [2]) [1] [3]) [1]
      = some [2] :=
  (datastore_insert_never_overwrites [] [1] [2] [3]).2.2.1 (by decide)

/-! ## Fragmentation lemmas (C2, C3) -/

theorem chr_eq_some {n : Nat} (h : n < 256) : Proto.chr n = some n := if_pos h

theorem shiftRight8_lt {n : Nat} (h : n < 65536) : n >>> 8 < 256 := by
  rw [Nat.shiftRight_eq_div_pow]
  exact (Nat.div_lt_iff_lt_mul (by norm_num)).mpr (by omega)

theorem fragLoop_eq (data rpcID encTot : PyStr) (limit : Nat) :
    ∀ rem seq, seq + rem ≤ 65536 →
      Proto.fragLoop data rpcID encTot limit rem seq =
        some ((List.range rem).map (fun j =>
          0 :: (encTot ++ (seq + j) >>> 8 :: (seq + j) % 256 ::
            (rpcID ++ 0 :: ((data.drop ((seq + j) * limit)).take limit))))) := by
  intro rem
  induction rem with
  | zero => intro seq _; simp [Proto.fragLoop]
  | succ rem ih =>
    intro seq h
    have h8 : seq >>> 8 < 256 := shiftRight8_lt (by omega)
    simp only [Proto.fragLoop, chr_eq_some h8, chr_eq_some (Nat.mod_lt seq (by norm_num))]
    rw [ih (seq + 1) (by omega)]
    rw [List.range_succ_eq_map]
    simp only [List.map_cons, List.map_map, Nat.add_zero]
    refine congrArg some (congrArg₂ List.cons rfl ?_)
    refine List.map_congr_left ?_
    intro j _
    have hsj : seq + 1 + j = seq + (j + 1) := by omega
    simp [Function.comp, hsj]

theorem totalPackets_eq_ceil (L P : Nat) (hP : 0 < P) :
    Proto.totalPacketsFor L P = (L + P - 1) / P := by
  have h1 : P * (L / P) + L % P = L := Nat.div_add_mod L P
  have h1' : L / P * P + L % P = L := by rw [Nat.mul_comm] at h1; exact h1
  have hmod : L % P < P := Nat.mod_lt _ hP
  by_cases hr : L % P > 0
  · have hlo : (L / P + 1) * P ≤ L + P - 1 := by
      rw [Nat.succ_mul]
      omega
    have hhi : L + P - 1 < ((L / P + 1) + 1) * P := by
      rw [Nat.succ_mul, Nat.succ_mul]
      omega
    rw [Proto.totalPacketsFor, if_pos hr, (Nat.div_eq_of_lt_le hlo hhi).symm]
  · have hr0 : L % P = 0 := by omega
    have hlo : L / P * P ≤ L + P - 1 := by omega
    have hhi : L + P - 1 < (L / P + 1) * P := by
      rw [Nat.succ_mul]
      omega
    have hd := Nat.div_eq_of_lt_le hlo hhi
    rw [Proto.totalPacketsFor, if_neg hr]
    omega

theorem totalPackets_zero (P : Nat) (hP : 0 < P) (data : PyStr)
    (h : Proto.totalPacketsFor data.length P = 0) : data = [] := by
  rw [Proto.totalPacketsFor] at h
  by_cases hr : data.length % P > 0
  · rw [if_pos hr] at h
    exact absurd h (Nat.succ_ne_zero _)
  · rw [if_neg hr] at h
    have hdiv : data.length / P = 0 := by omega
    have hmod : data.length % P = 0 := by omega
    have hdm := Nat.div_add_mod data.length P
    rw [hdiv, hmod] at hdm
    simp only [Nat.mul_zero, Nat.add_zero] at hdm
    exact List.eq_nil_of_length_eq_zero hdm.symm

theorem totalPackets_drop (P : Nat) (hP : 0 < P) (data : PyStr) (tp : Nat)
    (hgt : P < data.length)
    (htp : Proto.totalPacketsFor data.length P = tp + 1) :
    Proto.totalPacketsFor (data.drop P).length P = tp := by
  rw [List.length_drop]
  have hLP : data.length - P + P = data.length := by omega
  have hdiv : data.length / P = (data.length - P) / P + 1 := by
    conv_lhs => rw [← hLP]
    rw [Nat.add_div_right _ hP]
  have hmod : data.length % P = (data.length - P) % P := by
    conv_lhs => rw [← hLP]
    rw [Nat.add_mod_right]
  rw [Proto.totalPacketsFor] at htp ⊢
  by_cases hr : data.length % P > 0
  · rw [if_pos hr] at htp
    rw [if_pos (by omega : (data.length - P) % P > 0)]
    omega
  · rw [if_neg hr] at htp
    rw [if_neg (by omega : ¬ (data.length - P) % P > 0)]
    omega

theorem join_chunks (P : Nat) (hP : 0 < P) :
    ∀ (tp : Nat) (data : PyStr), Proto.totalPacketsFor data.length P = tp →
      ((List.range tp).map (fun i => (data.drop (i * P)).take P)).flatten = data := by
  intro tp
  induction tp with
  | zero =>
    intro data htp
    rw [totalPackets_zero P hP data htp]
    rfl
  | succ tp ih =>
    intro data htp
    have hL : 0 < data.length := by
      by_contra hc
      have h0 : data.length = 0 := by omega
      rw [Proto.totalPacketsFor, h0] at htp
      simp at htp
    by_cases hle : data.length ≤ P
    · have htp1 : Proto.totalPacketsFor data.length P = 1 := by
        rw [Proto.totalPacketsFor]
        rcases Nat.lt_or_ge data.length P with hlt | hge
        · rw [Nat.div_eq_of_lt hlt, if_pos (by rw [Nat.mod_eq_of_lt hlt]; omega)]
        · have heq : data.length = P := by omega
          rw [heq, Nat.div_self hP, Nat.mod_self]
          simp
      have htp0 : tp = 0 := by omega
      subst htp0
      rw [show List.range 1 = [0] from rfl]
      simp only [List.map_cons, List.map_nil, List.flatten_cons,
        List.flatten_nil, List.append_nil, Nat.zero_mul, List.drop_zero]
      exact List.take_of_length_le hle
    · push_neg at hle
      rw [List.range_succ_eq_map, List.map_cons, List.map_map, List.flatten_cons,
        Nat.zero_mul, List.drop_zero]
      have hcomp : ∀ j ∈ List.range tp,
          ((fun i => (data.drop (i * P)).take P) ∘ Nat.succ) j =
            (fun i => (((data.drop P).drop (i * P)).take P)) j := by
        intro j _
        have : Nat.succ j * P = j * P + P := Nat.succ_mul j P
        simp only [Function.comp, this, List.drop_drop]
        rw [Nat.add_comm]
      rw [List.map_congr_left hcomp]
      rw [ih (data.drop P) (totalPackets_drop P hP data tp hle htp)]
      exact List.take_append_drop P data

theorem send_eq_mkPackets (data rid : PyStr)
    (h1 : data.length > Proto.msgSizeLimit)
    (h2 : Proto.totalPacketsFor data.length Proto.msgSizeLimit ≤ 65535) :
    Proto.send data rid =
      some ((List.range (Proto.totalPacketsFor data.length Proto.msgSizeLimit)).map
        (Proto.mkPacket data rid (Proto.totalPacketsFor data.length Proto.msgSizeLimit))) := by
  have h8 : Proto.totalPacketsFor data.length Proto.msgSizeLimit >>> 8 < 256 :=
    shiftRight8_lt (by omega)
  simp only [Proto.send, if_pos h1, chr_eq_some h8,
    chr_eq_some (Nat.mod_lt _ (show 0 < 256 by norm_num))]
  rw [fragLoop_eq data rid _ Proto.msgSizeLimit _ 0 (by omega)]
  refine congrArg some (List.map_congr_left ?_)
  intro j _
  simp [Proto.mkPacket]

theorem mkPacket_drop26 (data rid : PyStr) (tp i : Nat) (hrid : rid.length = 20) :
    (Proto.mkPacket data rid tp i).drop 26 =
      (data.drop (i * Proto.msgSizeLimit)).take Proto.msgSizeLimit := by
  have hsplit : rid ++ 0 :: (data.drop (i * Proto.msgSizeLimit)).take Proto.msgSizeLimit =
      (rid ++ [0]) ++ (data.drop (i * Proto.msgSizeLimit)).take Proto.msgSizeLimit := by
    simp
  have hlen : (rid ++ [0]).length = 21 := by simp [hrid]
  simp only [Proto.mkPacket, List.drop_succ_cons, hsplit]
  rw [show (21 : Nat) = (rid ++ [0]).length from hlen.symm, List.drop_left]

/-- C2 counterexample: the claim quantifies over every encoded message
longer than the limit, but the fragment-count field is two bytes: for a
message needing 65536 fragments (length `msgSizeLimit * 65535 + 1`),
Python 2 `chr(totalPackets >> 8)` is `chr(256)` which raises
`ValueError` before any datagram is written, so the sender does not
transmit `ceil(L/P)` datagrams there. -/
theorem send_overflow_no_datagrams :
    (List.replicate (8166 * 65535 + 1) (0 : Nat)).length > Proto.msgSizeLimit ∧
    Proto.send (List.replicate (8166 * 65535 + 1) (0 : Nat)) (List.replicate 20 97) = none := by
  have hlim : Proto.msgSizeLimit = 8166 := by decide
  have hlen : (List.replicate (8166 * 65535 + 1) (0 : Nat)).length = 8166 * 65535 + 1 :=
    List.length_replicate _ _
  have hgt : (List.replicate (8166 * 65535 + 1) (0 : Nat)).length > Proto.msgSizeLimit := by
    rw [hlen, hlim]
    norm_num
  refine ⟨hgt, ?_⟩
  have hdiv : (8166 * 65535 + 1) / 8166 = 65535 := by
    rw [Nat.mul_add_div (by norm_num)]
  have hmod : (8166 * 65535 + 1) % 8166 = 1 := by
    rw [Nat.mul_add_mod]
  have htp : Proto.totalPacketsFor (List.replicate (8166 * 65535 + 1) (0 : Nat)).length
      Proto.msgSizeLimit = 65536 := by
    rw [Proto.totalPacketsFor, hlen, hlim, hdiv, hmod]
    norm_num
  unfold Proto.send
  rw [if_pos hgt, htp]
  have hchr : Proto.chr (65536 >>> 8) = none := by decide
  rw [hchr]

/-- C2 as amended: for every encoded message whose length L exceeds the
per-datagram payload limit P = `msgSizeLimit` and whose fragment count
`ceil(L/P)` fits the two-byte header field (at most 65535), `_send`
transmits exactly `ceil(L/P)` datagrams; the i-th datagram is laid out
as byte 0 = 0x00, bytes 1-2 the total fragment count big-endian, bytes
3-4 the sequence number i big-endian, bytes 5-24 the 20-byte rpc-id,
byte 25 = 0x00, bytes 26 onward the i-th payload slice; and the payload
slices in ascending sequence order concatenate to exactly the original
encoded bytes. -/
theorem send_fragmentation_layout :
    ∀ (data rid : PyStr), rid.length = 20 →
      data.length > Proto.msgSizeLimit →
      Proto.totalPacketsFor data.length Proto.msgSizeLimit ≤ 65535 →
      ∃ pkts, Proto.send data rid = some pkts ∧
        pkts.length = (data.length + Proto.msgSizeLimit - 1) / Proto.msgSizeLimit ∧
        pkts = (List.range pkts.length).map (fun i =>
          0 :: (pkts.length >>> 8) :: (pkts.length % 256) :: (i >>> 8) :: (i % 256) ::
            (rid ++ 0 :: ((data.drop (i * Proto.msgSizeLimit)).take Proto.msgSizeLimit))) ∧
        (pkts.map (fun p => p.drop 26)).flatten = data := by
  intro data rid hrid hgt htp
  have hP : 0 < Proto.msgSizeLimit := by decide
  have hlen : ((List.range (Proto.totalPacketsFor data.length Proto.msgSizeLimit)).map
      (Proto.mkPacket data rid (Proto.totalPacketsFor data.length Proto.msgSizeLimit))).length
      = Proto.totalPacketsFor data.length Proto.msgSizeLimit := by
    simp
  refine ⟨_, send_eq_mkPackets data rid hgt htp, ?_, ?_, ?_⟩
  · rw [hlen, totalPackets_eq_ceil _ _ hP]
  · rw [hlen]
    rfl
  · rw [List.map_map]
    have hpl : ∀ i ∈ List.range (Proto.totalPacketsFor data.length Proto.msgSizeLimit),
        ((fun p => p.drop 26) ∘ Proto.mkPacket data rid
          (Proto.totalPacketsFor data.length Proto.msgSizeLimit)) i =
          (fun i => (data.drop (i * Proto.msgSizeLimit)).take Proto.msgSizeLimit) i := by
      intro i _
      exact mkPacket_drop26 data rid
        (Proto.totalPacketsFor data.length Proto.msgSizeLimit) i hrid
    rw [List.map_congr_left hpl]
    exact join_chunks Proto.msgSizeLimit hP _ data rfl

/-- Witness for C2's amended theorem: a message one byte over the limit,
split into two fragments. -/
theorem send_fragmentation_layout_witness :
    (List.replicate 20 (97 : Nat)).length = 20 ∧
    (List.replicate 8167 (7 : Nat)).length > Proto.msgSizeLimit ∧
    Proto.totalPacketsFor (List.replicate 8167 (7 : Nat)).length Proto.msgSizeLimit ≤ 65535 ∧
    (∃ pkts, Proto.send (List.replicate 8167 (7 : Nat)) (List.replicate 20 (97 : Nat))
        = some pkts ∧
      pkts.length = ((List.replicate 8167 (7 : Nat)).length + Proto.msgSizeLimit - 1) /
        Proto.msgSizeLimit ∧
      pkts = (List.range pkts.length).map (fun i =>
        0 :: (pkts.length >>> 8) :: (pkts.length % 256) :: (i >>> 8) :: (i % 256) ::
          (List.replicate 20 (97 : Nat) ++ 0 ::
            (((List.replicate 8167 (7 : Nat)).drop (i * Proto.msgSizeLimit)).take
              Proto.msgSizeLimit))) ∧
      (pkts.map (fun p => p.drop 26)).flatten = List.replicate 8167 (7 : Nat)) :=
  ⟨by decide, by rw [List.length_replicate]; decide,
    by rw [List.length_replicate]; decide,
    send_fragmentation_layout (List.replicate 8167 7) (List.replicate 20 97)
      (by decide) (by rw [List.length_replicate]; decide)
      (by rw [List.length_replicate]; decide)⟩

/-! ## Bencode string round-trip (used by the C3 witness) -/

theorem natDigitsAux_digits : ∀ (fuel n : Nat), ∀ c ∈ natDigitsAux fuel n, 48 ≤ c ∧ c ≤ 57 := by
  intro fuel
  induction fuel with
  | zero => intro n c hc; cases hc
  | succ fuel ih =>
    intro n c hc
    simp only [natDigitsAux] at hc
    by_cases h10 : n < 10
    · rw [if_pos h10] at hc
      simp only [List.mem_singleton] at hc
      omega
    · rw [if_neg h10] at hc
      rcases List.mem_append.mp hc with h | h
      · exact ih _ c h
      · simp only [List.mem_singleton] at h
        have hm : n % 10 < 10 := Nat.mod_lt _ (by norm_num)
        omega

theorem digitsValAux_append : ∀ (a b : PyStr) (acc : Nat),
    digitsValAux (a ++ b) acc =
      match digitsValAux a acc with
      | some acc2 => digitsValAux b acc2
      | none => none := by
  intro a
  induction a with
  | nil => intro b acc; rfl
  | cons c rest ih =>
    intro b acc
    by_cases hc : 48 ≤ c ∧ c ≤ 57
    · simp only [List.cons_append, digitsValAux, if_pos hc]
      exact ih b _
    · simp only [List.cons_append, digitsValAux, if_neg hc]

theorem natDigitsAux_val : ∀ (fuel n acc : Nat), n < fuel →
    digitsValAux (natDigitsAux fuel n) acc =
      some (acc * 10 ^ (natDigitsAux fuel n).length + n) := by
  intro fuel
  induction fuel with
  | zero => intro n acc h; exact absurd h (Nat.not_lt_zero n)
  | succ fuel ih =>
    intro n acc h
    by_cases h10 : n < 10
    · have hd : 48 ≤ 48 + n ∧ 48 + n ≤ 57 := by omega
      simp only [natDigitsAux, if_pos h10, digitsValAux, if_pos hd, List.length_singleton]
      congr 1
      rw [pow_one]
      omega
    · have hrec : n / 10 < fuel := by
        have h1 : n / 10 < n := Nat.div_lt_self (by omega) (by norm_num)
        omega
      have hd : 48 ≤ 48 + n % 10 ∧ 48 + n % 10 ≤ 57 := by
        have hm : n % 10 < 10 := Nat.mod_lt _ (by norm_num)
        omega
      simp only [natDigitsAux, if_neg h10]
      rw [digitsValAux_append, ih (n / 10) acc hrec]
      simp only [digitsValAux, if_pos hd]
      congr 1
      rw [List.length_append, List.length_singleton, pow_succ]
      have hdm : 10 * (n / 10) + n % 10 = n := Nat.div_add_mod n 10
      have h48 : 48 + n % 10 - 48 = n % 10 := by omega
      rw [h48]
      calc (acc * 10 ^ (natDigitsAux fuel (n / 10)).length + n / 10) * 10 + n % 10
          = acc * (10 ^ (natDigitsAux fuel (n / 10)).length * 10) +
              (10 * (n / 10) + n % 10) := by ring
        _ = acc * (10 ^ (natDigitsAux fuel (n / 10)).length * 10) + n := by rw [hdm]

theorem natDigits_ne_nil (n : Nat) : natDigits n ≠ [] := by
  rw [natDigits]
  simp only [natDigitsAux]
  by_cases h10 : n < 10
  · rw [if_pos h10]
    simp
  · rw [if_neg h10]
    simp

theorem digitsVal_natDigits (n : Nat) : digitsVal (natDigits n) = some n := by
  rw [digitsVal, if_neg (by simpa [List.isEmpty_iff] using natDigits_ne_nil n)]
  rw [natDigits, natDigitsAux_val (n + 1) n 0 (Nat.lt_succ_self n)]
  simp

theorem natDigits_cons (n : Nat) : ∃ d t, natDigits n = d :: t ∧ 48 ≤ d ∧ d ≤ 57 := by
  cases hL : natDigits n with
  | nil => exact absurd hL (natDigits_ne_nil n)
  | cons d t =>
    have hmem : d ∈ natDigits n := hL ▸ List.mem_cons_self d t
    have hd := natDigitsAux_digits (n + 1) n d hmem
    exact ⟨d, t, rfl, hd.1, hd.2⟩

theorem findIdxFrom_append (c : Nat) (post : PyStr) :
    ∀ (pre : PyStr), (∀ b ∈ pre, b ≠ c) →
      findIdxFrom c (pre ++ c :: post) = some pre.length := by
  intro pre
  induction pre with
  | nil => simp [findIdxFrom]
  | cons b rest ih =>
    intro h
    have hb : b ≠ c := h b (List.mem_cons_self b rest)
    simp only [List.cons_append, findIdxFrom, if_neg hb, List.append_eq]
    rw [ih (fun x hx => h x (List.mem_cons_of_mem b hx))]
    simp

/-- The Bencode decoder inverts the encoder on byte-string values: the
round-trip law holds for this shape of message (the C3 witness routes a
long string value through fragmentation and reassembly). -/
theorem decode_encode_str (s : PyStr) :
    Bencode.decode (Bencode.encode (Bencode.BValue.str s)) = some (Bencode.BValue.str s) := by
  obtain ⟨d, t, hdt, hd1, hd2⟩ := natDigits_cons s.length
  have hdata : Bencode.encode (Bencode.BValue.str s) = natDigits s.length ++ (58 :: s) := rfl
  simp only [Bencode.decode, hdata, hdt, List.cons_append]
  rw [show 2 * (d :: (t ++ 58 :: s) : PyStr).length + 2
      = (2 * (d :: (t ++ 58 :: s) : PyStr).length + 1) + 1 from rfl]
  simp only [Bencode.decodeRec]
  rw [show ((d :: (t ++ 58 :: s) : PyStr).get? 0) = some d from rfl]
  dsimp only
  rw [if_neg (by omega : ¬ d = 105), if_neg (by omega : ¬ d = 108),
    if_neg (by omega : ¬ d = 100)]
  have hdigits : ∀ b ∈ (d :: t : PyStr), 48 ≤ b ∧ b ≤ 57 := by
    intro b hb
    exact natDigitsAux_digits (s.length + 1) s.length b
      (show b ∈ natDigits s.length by rw [hdt]; exact hb)
  have hfind : findFrom (d :: (t ++ 58 :: s)) 58 0 = some (d :: t : PyStr).length := by
    rw [findFrom, List.drop_zero,
      show (d :: (t ++ 58 :: s) : PyStr) = (d :: t) ++ 58 :: s by simp,
      findIdxFrom_append 58 s (d :: t)
        (fun b hb => by have := hdigits b hb; omega)]
    simp
  rw [hfind]
  dsimp only
  have hslice1 : pySlice (d :: (t ++ 58 :: s)) 0 (d :: t : PyStr).length = d :: t := by
    rw [pySlice, List.drop_zero, Nat.sub_zero,
      show (d :: (t ++ 58 :: s) : PyStr) = (d :: t) ++ 58 :: s by simp]
    exact List.take_left _ _
  rw [hslice1, ← hdt, digitsVal_natDigits]
  dsimp only
  have hslice2 : pySlice (d :: (t ++ 58 :: s))
      ((natDigits s.length).length + 1) ((natDigits s.length).length + 1 + s.length) = s := by
    rw [pySlice, show (natDigits s.length).length + 1 + s.length
        - ((natDigits s.length).length + 1) = s.length by omega]
    rw [show (d :: (t ++ 58 :: s) : PyStr) = ((d :: t) ++ [58]) ++ s by simp]
    rw [show (natDigits s.length).length + 1 = ((d :: t : PyStr) ++ [58]).length by
      simp [hdt]]
    rw [List.drop_left, List.take_length]
  rw [hslice2]
  rfl

/-! ## Reassembly lemmas (C3) -/

theorem pySet_pySet {κ α : Type} [DecidableEq κ] :
    ∀ (m : List (κ × α)) (k : κ) (a b : α), pySet (pySet m k a) k b = pySet m k b := by
  intro m k a b
  induction m with
  | nil => simp [pySet]
  | cons e rest ih =>
    by_cases he : e.1 = k
    · simp [pySet, he]
    · simp [pySet, he, ih]

theorem pySet_append_entry {κ α : Type} [DecidableEq κ] (m : List (κ × α)) (k : κ)
    (h : pyGet m k = none) (v x : α) :
    pySet (m ++ [(k, v)]) k x = m ++ [(k, x)] := by
  rw [← pySet_append_of_absent m k v h, pySet_pySet, pySet_append_of_absent m k x h]

theorem pyGet_append_entry {κ α : Type} [DecidableEq κ] (m : List (κ × α)) (k : κ)
    (h : pyGet m k = none) (v : α) :
    pyGet (m ++ [(k, v)]) k = some v := by
  rw [← pySet_append_of_absent m k v h]
  exact pyGet_pySet_self m k v

theorem pyGet_graph_some {α : Type} (g : Nat → α) :
    ∀ (l : List Nat) (i : Nat), i ∈ l →
      pyGet (l.map (fun j => (j, g j))) i = some (g i) := by
  intro l
  induction l with
  | nil => intro i hi; cases hi
  | cons j rest ih =>
    intro i hi
    by_cases hj : j = i
    · subst hj
      simp [pyGet]
    · simp only [List.map_cons, pyGet, if_neg hj]
      rcases List.mem_cons.mp hi with h | h
      · exact absurd h.symm hj
      · exact ih i h

theorem pyGet_graph_none {α : Type} (g : Nat → α) (l : List Nat) (i : Nat) (hi : i ∉ l) :
    pyGet (l.map (fun j => (j, g j))) i = none := by
  rw [pyGet_eq_none_iff]
  intro e he
  simp only [List.mem_map] at he
  obtain ⟨j, hj, rfl⟩ := he
  intro hji
  exact hi (hji ▸ hj)

theorem sortNat_eq_range {l : List Nat} {n : Nat} (h : l.Perm (List.range n)) :
    Proto.sortNat l = List.range n := by
  have hperm : (Proto.sortNat l).Perm (List.range n) :=
    (List.perm_insertionSort (· ≤ ·) l).trans h
  have hs1 : (Proto.sortNat l).Sorted (· ≤ ·) := List.sorted_insertionSort (· ≤ ·) l
  have hs2 : (List.range n).Sorted (· ≤ ·) :=
    (List.pairwise_lt_range n).imp (fun hlt => le_of_lt hlt)
  exact List.eq_of_perm_of_sorted hperm hs1 hs2

theorem mkPacket_get25 (data rid : PyStr) (tp i : Nat) (hrid : rid.length = 20) :
    (Proto.mkPacket data rid tp i).get? 25 = some 0 := by
  show (rid ++ 0 :: ((data.drop (i * Proto.msgSizeLimit)).take Proto.msgSizeLimit)).get? 20
    = some 0
  rw [List.get?_append_right (by omega), hrid]
  rfl

theorem mkPacket_msgID (data rid : PyStr) (tp i : Nat) (hrid : rid.length = 20) :
    ((Proto.mkPacket data rid tp i).drop 5).take 20 = rid := by
  show (rid ++ 0 :: ((data.drop (i * Proto.msgSizeLimit)).take Proto.msgSizeLimit)).take 20
    = rid
  rw [← hrid]
  exact List.take_left rid _

theorem be16_roundtrip (n : Nat) : 256 * (n >>> 8) + n % 256 = n := by
  rw [Nat.shiftRight_eq_div_pow]
  have : (2 : Nat) ^ 8 = 256 := by norm_num
  rw [this]
  exact Nat.div_add_mod n 256

/-- One fragment arrival, evaluated on the exact datagram `_send` emits:
the payload is buffered under (rpc-id, sequence number); when the buffer
reaches the advertised total the entry is removed and the ascending-order
concatenation is released for decoding. -/
theorem recvDatagram_mkPacket (t : Proto.PMTable) (data rid : PyStr) (tp i : Nat)
    (hrid : rid.length = 20) :
    Proto.recvDatagram t (Proto.mkPacket data rid tp i) =
      (if (pySet ((pyGet t rid).getD []) i
            ((data.drop (i * Proto.msgSizeLimit)).take Proto.msgSizeLimit)).length = tp then
        some (pyDel (pySet t rid (pySet ((pyGet t rid).getD []) i
                ((data.drop (i * Proto.msgSizeLimit)).take Proto.msgSizeLimit))) rid,
          some (((Proto.sortNat ((pySet ((pyGet t rid).getD []) i
              ((data.drop (i * Proto.msgSizeLimit)).take Proto.msgSizeLimit)).map Prod.fst)).map
            (fun s2 => (pyGet (pySet ((pyGet t rid).getD []) i
              ((data.drop (i * Proto.msgSizeLimit)).take Proto.msgSizeLimit)) s2).getD [])).flatten))
      else
        some (pySet t rid (pySet ((pyGet t rid).getD []) i
          ((data.drop (i * Proto.msgSizeLimit)).take Proto.msgSizeLimit)), none)) := by
  have h0 : (Proto.mkPacket data rid tp i).get? 0 = some 0 := rfl
  have h25 := mkPacket_get25 data rid tp i hrid
  have hid := mkPacket_msgID data rid tp i hrid
  have hpl := mkPacket_drop26 data rid tp i hrid
  have hg1 : (Proto.mkPacket data rid tp i).getD 1 0 = tp >>> 8 := rfl
  have hg2 : (Proto.mkPacket data rid tp i).getD 2 0 = tp % 256 := rfl
  have hg3 : (Proto.mkPacket data rid tp i).getD 3 0 = i >>> 8 := rfl
  have hg4 : (Proto.mkPacket data rid tp i).getD 4 0 = i % 256 := rfl
  simp only [Proto.recvDatagram, h0, h25, hid, hpl, hg1, hg2, hg3, hg4,
    be16_roundtrip, if_pos rfl, if_true]

/-- Delivering the fragments of one `_send` transmission in an arbitrary
index order: as long as fragments remain, the receiver only buffers
(output `none`); the last arrival releases exactly the original bytes
and restores the partial-message table to its initial state. -/
theorem recvSeq_reassembles (data rid : PyStr) (tp : Nat) (t0 : Proto.PMTable)
    (hrid : rid.length = 20)
    (hTP : Proto.totalPacketsFor data.length Proto.msgSizeLimit = tp)
    (h0 : pyGet t0 rid = none) :
    ∀ (todo done : List Nat) (s : Proto.PMTable),
      (done ++ todo).Perm (List.range tp) → todo ≠ [] →
      (∀ x, pySet s rid x = t0 ++ [(rid, x)]) →
      (pyGet s rid).getD [] = done.map (fun j =>
        (j, (data.drop (j * Proto.msgSizeLimit)).take Proto.msgSizeLimit)) →
      Proto.recvSeq s (todo.map (Proto.mkPacket data rid tp)) =
        some (t0, List.replicate (todo.length - 1) none ++ [some data]) := by
  intro todo
  induction todo with
  | nil => intro done s _ hne _ _; exact absurd rfl hne
  | cons i todo ih =>
    intro done s hperm _ hset hget
    have hnd : (done ++ i :: todo).Nodup := hperm.nodup_iff.mpr (List.nodup_range tp)
    obtain ⟨hnd1, hnd2, hdisj⟩ := List.nodup_append.mp hnd
    have hfresh : i ∉ done := fun hid => hdisj hid (List.mem_cons_self i todo)
    have hsetinner : pySet (done.map (fun j =>
        (j, (data.drop (j * Proto.msgSizeLimit)).take Proto.msgSizeLimit))) i
        ((data.drop (i * Proto.msgSizeLimit)).take Proto.msgSizeLimit) =
        (done ++ [i]).map (fun j =>
          (j, (data.drop (j * Proto.msgSizeLimit)).take Proto.msgSizeLimit)) := by
      rw [pySet_append_of_absent _ _ _ (pyGet_graph_none _ done i hfresh)]
      simp
    have hlentot : done.length + (i :: todo).length = tp := by
      have h1 := hperm.length_eq
      simpa using h1
    rw [List.map_cons]
    simp only [Proto.recvSeq]
    rw [recvDatagram_mkPacket s data rid tp i hrid, hget, hsetinner]
    cases todo with
    | nil =>
      have hlen : ((done ++ [i]).map (fun j =>
          (j, (data.drop (j * Proto.msgSizeLimit)).take Proto.msgSizeLimit))).length = tp := by
        simp only [List.length_map, List.length_append, List.length_cons, List.length_nil]
        simp only [List.length_cons, List.length_nil] at hlentot
        omega
      rw [if_pos hlen, hset, pyDel_append_self _ _ _ h0]
      have hpermdi : (done ++ [i]).Perm (List.range tp) := by simpa using hperm
      have hkeys : ((done ++ [i]).map (fun j =>
          (j, (data.drop (j * Proto.msgSizeLimit)).take Proto.msgSizeLimit))).map Prod.fst
          = done ++ [i] := by
        rw [List.map_map]
        exact List.map_id _
      rw [hkeys, sortNat_eq_range hpermdi]
      have hmapeq : (List.range tp).map (fun s2 =>
          (pyGet ((done ++ [i]).map (fun j =>
            (j, (data.drop (j * Proto.msgSizeLimit)).take Proto.msgSizeLimit))) s2).getD [])
          = (List.range tp).map (fun s2 =>
            (data.drop (s2 * Proto.msgSizeLimit)).take Proto.msgSizeLimit) := by
        refine List.map_congr_left ?_
        intro j hj
        rw [pyGet_graph_some _ (done ++ [i]) j (hpermdi.mem_iff.mpr hj)]
        rfl
      rw [hmapeq, join_chunks Proto.msgSizeLimit (by decide) tp data hTP]
      simp [Proto.recvSeq]
    | cons i2 todo2 =>
      have hlen : ¬ ((done ++ [i]).map (fun j =>
          (j, (data.drop (j * Proto.msgSizeLimit)).take Proto.msgSizeLimit))).length = tp := by
        simp only [List.length_map, List.length_append, List.length_cons, List.length_nil]
        simp only [List.length_cons, List.length_nil] at hlentot
        omega
      rw [if_neg hlen, hset]
      dsimp only
      have hset2 : ∀ x, pySet (t0 ++ [(rid, (done ++ [i]).map (fun j =>
          (j, (data.drop (j * Proto.msgSizeLimit)).take Proto.msgSizeLimit)))]) rid x
          = t0 ++ [(rid, x)] :=
        fun x => pySet_append_entry t0 rid h0 _ x
      have hget2 : (pyGet (t0 ++ [(rid, (done ++ [i]).map (fun j =>
          (j, (data.drop (j * Proto.msgSizeLimit)).take Proto.msgSizeLimit)))]) rid).getD []
          = (done ++ [i]).map (fun j =>
            (j, (data.drop (j * Proto.msgSizeLimit)).take Proto.msgSizeLimit)) := by
        rw [pyGet_append_entry t0 rid h0]
        rfl
      have hperm2 : ((done ++ [i]) ++ i2 :: todo2).Perm (List.range tp) := by
        simpa using hperm
      have ihv := ih (done ++ [i]) _ hperm2 (by simp) hset2 hget2
      rw [ihv]
      rfl

/-- C3 as amended: for every fragmented transmission of a message (one
whose encoding exceeds the datagram limit, with a fragment count fitting
the two-byte header field), and for every order of delivery of its
fragments, all arrivals but the last only buffer; the last arrival makes
the receiver concatenate the buffered payloads in ascending sequence
order into exactly the original encoded bytes and remove the rpc-id's
entry from the partial-message buffer; the decoded value equals the
original message whenever the Bencode round-trip law holds for that
message.  The original claim asserted the decoded-equal part for every
message; `fragment_reassembly_decode_mismatch` refutes that: the
decoder's dict off-by-one (C1) makes some faithfully reassembled byte
strings decode to a different message. -/
theorem fragment_reassembly_any_order :
    ∀ (p : Bencode.BValue) (rid : PyStr) (t0 : Proto.PMTable) (is : List Nat),
      Bencode.decode (Bencode.encode p) = some p →
      rid.length = 20 →
      (Bencode.encode p).length > Proto.msgSizeLimit →
      Proto.totalPacketsFor (Bencode.encode p).length Proto.msgSizeLimit ≤ 65535 →
      pyGet t0 rid = none →
      is.Perm (List.range
        (Proto.totalPacketsFor (Bencode.encode p).length Proto.msgSizeLimit)) →
      Proto.send (Bencode.encode p) rid =
        some ((List.range
          (Proto.totalPacketsFor (Bencode.encode p).length Proto.msgSizeLimit)).map
          (Proto.mkPacket (Bencode.encode p) rid
            (Proto.totalPacketsFor (Bencode.encode p).length Proto.msgSizeLimit))) ∧
      ∃ out,
        Proto.recvSeq t0 (is.map (Proto.mkPacket (Bencode.encode p) rid
            (Proto.totalPacketsFor (Bencode.encode p).length Proto.msgSizeLimit))) =
          some (t0, List.replicate (is.length - 1) none ++ [out]) ∧
        out = some (Bencode.encode p) ∧
        out.bind Bencode.decode = some p := by
  intro p rid t0 is hdec hrid hgt htp h0 hperm
  refine ⟨send_eq_mkPackets _ _ hgt htp, some (Bencode.encode p), ?_, rfl, by simpa using hdec⟩
  have hne : is ≠ [] := by
    intro he
    subst he
    have h1 := hperm.length_eq
    have htp1 : 1 ≤ Proto.totalPacketsFor (Bencode.encode p).length Proto.msgSizeLimit := by
      rw [Proto.totalPacketsFor]
      have : 1 ≤ (Bencode.encode p).length / Proto.msgSizeLimit :=
        (Nat.one_le_div_iff (by decide)).mpr (by omega)
      omega
    simp at h1
    omega
  exact recvSeq_reassembles (Bencode.encode p) rid _ t0 hrid rfl h0 is [] t0
    (by simpa using hperm) hne (fun x => pySet_append_of_absent t0 rid x h0)
    (by rw [h0]; rfl)

/-- Witness for C3: a string message of 8200 bytes (8205 encoded bytes,
two fragments), its fragments delivered in reversed order 1, 0 into an
empty partial-message table. -/
theorem fragment_reassembly_any_order_witness :
    Proto.send (Bencode.encode (Bencode.BValue.str (List.replicate 8200 97)))
        (List.replicate 20 97) =
      some ((List.range (Proto.totalPacketsFor
          (Bencode.encode (Bencode.BValue.str (List.replicate 8200 97))).length
          Proto.msgSizeLimit)).map
        (Proto.mkPacket (Bencode.encode (Bencode.BValue.str (List.replicate 8200 97)))
          (List.replicate 20 97)
          (Proto.totalPacketsFor
            (Bencode.encode (Bencode.BValue.str (List.replicate 8200 97))).length
            Proto.msgSizeLimit))) ∧
    ∃ out,
      Proto.recvSeq []
        ([1, 0].map (Proto.mkPacket
          (Bencode.encode (Bencode.BValue.str (List.replicate 8200 97)))
          (List.replicate 20 97)
          (Proto.totalPacketsFor
            (Bencode.encode (Bencode.BValue.str (List.replicate 8200 97))).length
            Proto.msgSizeLimit))) =
        some ([], List.replicate ([1, 0].length - 1) none ++ [out]) ∧
      out = some (Bencode.encode (Bencode.BValue.str (List.replicate 8200 97))) ∧
      out.bind Bencode.decode = some (Bencode.BValue.str (List.replicate 8200 97)) := by
  have hlen : (Bencode.encode (Bencode.BValue.str (List.replicate 8200 (97 : Nat)))).length
      = 8205 := by
    rw [show Bencode.encode (Bencode.BValue.str (List.replicate 8200 (97 : Nat)))
        = natDigits (List.replicate 8200 (97 : Nat)).length ++
            (58 :: List.replicate 8200 (97 : Nat)) from rfl]
    rw [List.length_append, List.length_cons, List.length_replicate]
    rw [show natDigits 8200 = [56, 50, 48, 48] from rfl]
    rfl
  exact fragment_reassembly_any_order (Bencode.BValue.str (List.replicate 8200 97))
    (List.replicate 20 97) [] [1, 0]
    (decode_encode_str _)
    (by rw [List.length_replicate])
    (by rw [hlen]; decide)
    (by rw [hlen]; decide)
    rfl
    (by rw [hlen]; decide)

/-- C3 counterexample: the frozen claim says that for every fragmented
transmission, the last arriving fragment makes the receiver decode a
message equal to the original.  Take the valid message
`[{}, "a" * 9000]` (a list holding an empty dict and a 9000-byte
string): its encoding `lde9000:a...ae` is 9009 bytes, so `_send` really
fragments it into two datagrams; delivering them in the order 1, 0
reassembles exactly the original bytes and clears the buffer entry, but
the decoder — whose dict branch returns its index still ON the closing
`e` — stops the enclosing list at the nested dict and decodes `[{}]`,
not a message equal to the original. -/
theorem fragment_reassembly_decode_mismatch :
    (Bencode.encode (Bencode.BValue.list
      [Bencode.BValue.dict [], Bencode.BValue.str (List.replicate 9000 97)])).length >
      Proto.msgSizeLimit ∧
    Proto.totalPacketsFor (Bencode.encode (Bencode.BValue.list
      [Bencode.BValue.dict [], Bencode.BValue.str (List.replicate 9000 97)])).length
      Proto.msgSizeLimit = 2 ∧
    Proto.send (Bencode.encode (Bencode.BValue.list
        [Bencode.BValue.dict [], Bencode.BValue.str (List.replicate 9000 97)]))
        (List.replicate 20 97) =
      some [Proto.mkPacket (Bencode.encode (Bencode.BValue.list
              [Bencode.BValue.dict [], Bencode.BValue.str (List.replicate 9000 97)]))
              (List.replicate 20 97) 2 0,
            Proto.mkPacket (Bencode.encode (Bencode.BValue.list
              [Bencode.BValue.dict [], Bencode.BValue.str (List.replicate 9000 97)]))
              (List.replicate 20 97) 2 1] ∧
    Proto.recvSeq []
        ([1, 0].map (Proto.mkPacket (Bencode.encode (Bencode.BValue.list
          [Bencode.BValue.dict [], Bencode.BValue.str (List.replicate 9000 97)]))
          (List.replicate 20 97) 2)) =
      some ([], [none, some (Bencode.encode (Bencode.BValue.list
        [Bencode.BValue.dict [], Bencode.BValue.str (List.replicate 9000 97)]))]) ∧
    Bencode.decode (Bencode.encode (Bencode.BValue.list
        [Bencode.BValue.dict [], Bencode.BValue.str (List.replicate 9000 97)])) =
      some (Bencode.BValue.list [Bencode.BValue.dict []]) ∧
    Bencode.BValue.list [Bencode.BValue.dict []] ≠
      Bencode.BValue.list
        [Bencode.BValue.dict [], Bencode.BValue.str (List.replicate 9000 97)] := by
  have hform : Bencode.encode (Bencode.BValue.list
      [Bencode.BValue.dict [], Bencode.BValue.str (List.replicate 9000 (97 : Nat))]) =
      108 :: (([100, 101] ++ ((natDigits (List.replicate 9000 (97 : Nat)).length ++
        (58 :: List.replicate 9000 97)) ++ [])) ++ [101]) := rfl
  have hlen : (Bencode.encode (Bencode.BValue.list
      [Bencode.BValue.dict [], Bencode.BValue.str (List.replicate 9000 (97 : Nat))])).length
      = 9009 := by
    rw [hform, List.length_replicate]
    rw [show natDigits 9000 = [57, 48, 48, 48] from rfl]
    simp only [List.length_cons, List.length_append, List.length_replicate,
      List.length_nil]
  have hgt : (Bencode.encode (Bencode.BValue.list
      [Bencode.BValue.dict [], Bencode.BValue.str (List.replicate 9000 (97 : Nat))])).length
      > Proto.msgSizeLimit := by
    rw [hlen]
    decide
  have htp : Proto.totalPacketsFor (Bencode.encode (Bencode.BValue.list
      [Bencode.BValue.dict [], Bencode.BValue.str (List.replicate 9000 (97 : Nat))])).length
      Proto.msgSizeLimit = 2 := by
    rw [hlen]
    decide
  refine ⟨hgt, htp, ?_, ?_, ?_, by decide⟩
  · have hs := send_eq_mkPackets (Bencode.encode (Bencode.BValue.list
        [Bencode.BValue.dict [], Bencode.BValue.str (List.replicate 9000 97)]))
        (List.replicate 20 97) hgt (by rw [htp]; norm_num)
    rw [htp] at hs
    rw [hs]
    rfl
  · have hr := recvSeq_reassembles (Bencode.encode (Bencode.BValue.list
        [Bencode.BValue.dict [], Bencode.BValue.str (List.replicate 9000 97)]))
        (List.replicate 20 97) 2 [] (by decide) htp rfl [1, 0] [] []
        (by decide) (by decide) (fun x => rfl) rfl
    exact hr.trans (by rfl)
  · simp only [Bencode.decode]
    rw [hlen]
    rfl

/-! ## Pending-RPC lifecycle lemmas (C6) -/

theorem pyGet_pyDel_ne {κ α : Type} [DecidableEq κ] :
    ∀ (m : List (κ × α)) (i j : κ), i ≠ j → pyGet (pyDel m j) i = pyGet m i := by
  intro m i j hne
  induction m with
  | nil => rfl
  | cons e rest ih =>
    by_cases hej : e.1 = j
    · simp only [pyDel, if_pos hej, pyGet]
      rw [if_neg (fun hei => hne (hei.symm.trans hej))]
    · simp only [pyDel, if_neg hej, pyGet]
      by_cases hei : e.1 = i
      · rw [if_pos hei, if_pos hei]
      · rw [if_neg hei, if_neg hei, ih]

theorem pyGet_pySet_ne {κ α : Type} [DecidableEq κ] :
    ∀ (m : List (κ × α)) (i j : κ), i ≠ j → ∀ (v : α),
      pyGet (pySet m j v) i = pyGet m i := by
  intro m i j hne v
  induction m with
  | nil =>
    simp only [pySet, pyGet]
    rw [if_neg (fun hei : (j, v).1 = i => hne (hei.symm : i = j))]
  | cons e rest ih =>
    by_cases hej : e.1 = j
    · simp only [pySet, if_pos hej, pyGet]
      rw [if_neg (fun hei : (j, v).1 = i => hne (hei.symm : i = j)),
        if_neg (fun hei => hne (hei.symm.trans hej))]
    · simp only [pySet, if_neg hej, pyGet]
      by_cases hei : e.1 = i
      · rw [if_pos hei, if_pos hei]
      · rw [if_neg hei, if_neg hei, ih]

theorem pyDel_keys_sublist {κ α : Type} [DecidableEq κ] :
    ∀ (m : List (κ × α)) (j : κ),
      ((pyDel m j).map Prod.fst).Sublist (m.map Prod.fst) := by
  intro m j
  induction m with
  | nil => simp [pyDel]
  | cons e rest ih =>
    by_cases hej : e.1 = j
    · simp only [pyDel, if_pos hej, List.map_cons]
      exact (List.Sublist.refl _).cons e.1
    · simp only [pyDel, if_neg hej, List.map_cons]
      exact ih.cons₂ e.1

theorem pySet_keys_of_present {κ α : Type} [DecidableEq κ] :
    ∀ (m : List (κ × α)) (j : κ) (v0 v : α), pyGet m j = some v0 →
      (pySet m j v).map Prod.fst = m.map Prod.fst := by
  intro m j v0 v h
  induction m with
  | nil => simp [pyGet] at h
  | cons e rest ih =>
    by_cases hej : e.1 = j
    · simp [pySet, hej]
    · simp only [pyGet, if_neg hej] at h
      simp [pySet, hej, ih h]

theorem step_nodup (s : Proto.ProtoState) (e : Proto.RpcEvent)
    (hnd : (s.sentMessages.map Prod.fst).Nodup) :
    (((Proto.stepEvent s e).sentMessages).map Prod.fst).Nodup := by
  cases e with
  | respArrive j =>
    simp only [Proto.stepEvent, Proto.responseReceived]
    cases hj : pyGet s.sentMessages j with
    | none => exact hnd
    | some cid => exact List.Nodup.sublist (pyDel_keys_sublist s.sentMessages j) hnd
  | timerFire j =>
    simp only [Proto.stepEvent, Proto.msgTimeout]
    cases hj : pyGet s.sentMessages j with
    | none => exact hnd
    | some cid =>
      dsimp only
      by_cases hp : j ∈ s.partialKeys
      · rw [if_pos hp]
        simpa [pySet_keys_of_present s.sentMessages j cid cid hj] using hnd
      · rw [if_neg hp]
        exact List.Nodup.sublist (pyDel_keys_sublist s.sentMessages j) hnd
  | setPartial ids => exact hnd

theorem step_absent (s : Proto.ProtoState) (e : Proto.RpcEvent) (i : PyStr)
    (h : pyGet s.sentMessages i = none) :
    pyGet ((Proto.stepEvent s e).sentMessages) i = none := by
  cases e with
  | respArrive j =>
    simp only [Proto.stepEvent, Proto.responseReceived]
    cases hj : pyGet s.sentMessages j with
    | none => exact h
    | some cid =>
      have hne : i ≠ j := fun he => by rw [he, hj] at h; cases h
      rw [pyGet_pyDel_ne _ i j hne]
      exact h
  | timerFire j =>
    simp only [Proto.stepEvent, Proto.msgTimeout]
    cases hj : pyGet s.sentMessages j with
    | none => exact h
    | some cid =>
      dsimp only
      have hne : i ≠ j := fun he => by rw [he, hj] at h; cases h
      by_cases hp : j ∈ s.partialKeys
      · rw [if_pos hp, pyGet_pySet_ne _ i j hne]
        exact h
      · rw [if_neg hp, pyGet_pyDel_ne _ i j hne]
        exact h
  | setPartial ids => exact h

theorem absent_run : ∀ (tr : List Proto.RpcEvent) (s : Proto.ProtoState) (i : PyStr),
    pyGet s.sentMessages i = none →
    pyGet ((Proto.runEvents s tr).sentMessages) i = none := by
  intro tr
  induction tr with
  | nil => intro s i h; exact h
  | cons e tr ih => intro s i h; exact ih _ i (step_absent s e i h)

theorem removes_sound (s : Proto.ProtoState) (e : Proto.RpcEvent) (i : PyStr)
    (hnd : (s.sentMessages.map Prod.fst).Nodup)
    (hr : Proto.removesEntry s e i = true) :
    (pyGet s.sentMessages i).isSome = true ∧
      pyGet ((Proto.stepEvent s e).sentMessages) i = none := by
  cases e with
  | respArrive j =>
    simp only [Proto.removesEntry, Bool.and_eq_true, decide_eq_true_eq] at hr
    obtain ⟨hji, hsome⟩ := hr
    subst hji
    refine ⟨hsome, ?_⟩
    simp only [Proto.stepEvent, Proto.responseReceived]
    obtain ⟨cid, hcid⟩ := Option.isSome_iff_exists.mp hsome
    simp only [hcid]
    exact pyGet_pyDel_self_of_nodup _ _ hnd
  | timerFire j =>
    simp only [Proto.removesEntry, Bool.and_eq_true, decide_eq_true_eq] at hr
    obtain ⟨⟨hji, hsome⟩, hnp⟩ := hr
    subst hji
    refine ⟨hsome, ?_⟩
    simp only [Proto.stepEvent, Proto.msgTimeout]
    obtain ⟨cid, hcid⟩ := Option.isSome_iff_exists.mp hsome
    simp only [hcid]
    rw [if_neg hnp]
    exact pyGet_pyDel_self_of_nodup _ _ hnd
  | setPartial ids => simp [Proto.removesEntry] at hr

theorem not_removes_preserve (s : Proto.ProtoState) (e : Proto.RpcEvent) (i : PyStr)
    (hguard : ∀ j, e = Proto.RpcEvent.timerFire j → (pyGet s.sentMessages j).isSome = true)
    (hr : Proto.removesEntry s e i = false) :
    pyGet ((Proto.stepEvent s e).sentMessages) i = pyGet s.sentMessages i := by
  cases e with
  | respArrive j =>
    simp only [Proto.stepEvent, Proto.responseReceived]
    cases hj : pyGet s.sentMessages j with
    | none => rfl
    | some cid =>
      by_cases hji : j = i
      · subst hji
        exfalso
        simp [Proto.removesEntry, hj] at hr
      · exact pyGet_pyDel_ne _ i j (fun he => hji he.symm)
  | timerFire j =>
    simp only [Proto.stepEvent, Proto.msgTimeout]
    obtain ⟨cid, hcid⟩ := Option.isSome_iff_exists.mp (hguard j rfl)
    simp only [hcid]
    by_cases hp : j ∈ s.partialKeys
    · rw [if_pos hp]
      by_cases hji : j = i
      · subst hji
        rw [pySet_of_pyGet_self _ _ _ hcid]
      · exact pyGet_pySet_ne _ i j (fun he => hji he.symm) cid
    · rw [if_neg hp]
      by_cases hji : j = i
      · subst hji
        exfalso
        simp [Proto.removesEntry, hcid, hp] at hr
      · exact pyGet_pyDel_ne _ i j (fun he => hji he.symm)
  | setPartial ids => rfl

/-- C6: along any valid event sequence (one in which a timer fires only
while its entry is still pending — the reactor's guarantee, since a
response cancels the timer in the very step that deletes the entry), a
pending-RPC entry is removed exactly once: the number of removing events
for an rpc-id is 1 precisely when the id was pending at the start and is
gone at the end, and 0 otherwise — never two removals, and no removal as
long as the entry remains.  A removing event is a matching response
(which also cancels the timer) or a final timer firing.  In addition, a
response whose rpc-id has no pending entry is dropped silently: the state
is unchanged and no action is emitted. -/
theorem pending_entry_removed_exactly_once :
    ∀ (tr : List Proto.RpcEvent) (s : Proto.ProtoState) (i : PyStr),
      (s.sentMessages.map Prod.fst).Nodup →
      Proto.validEvents s tr = true →
      (Proto.removedCount s tr i =
        if (pyGet s.sentMessages i).isSome = true ∧
            pyGet ((Proto.runEvents s tr).sentMessages) i = none
        then 1 else 0) ∧
      (pyGet s.sentMessages i = none → Proto.responseReceived s i = (s, [])) := by
  intro tr
  induction tr with
  | nil =>
    intro s i _ _
    constructor
    · simp only [Proto.removedCount, Proto.runEvents]
      rw [if_neg]
      rintro ⟨h1, h2⟩
      rw [h2] at h1
      cases h1
    · intro h
      simp [Proto.responseReceived, h]
  | cons e tr ih =>
    intro s i hnd hv
    simp only [Proto.validEvents, Bool.and_eq_true] at hv
    have hv2 : Proto.validEvents (Proto.stepEvent s e) tr = true := hv.2
    have hguard : ∀ j, e = Proto.RpcEvent.timerFire j →
        (pyGet s.sentMessages j).isSome = true := by
      intro j hj
      subst hj
      simpa using hv.1
    have hnd2 := step_nodup s e hnd
    have ihs := (ih (Proto.stepEvent s e) i hnd2 hv2).1
    constructor
    · simp only [Proto.removedCount, Proto.runEvents]
      rw [ihs]
      by_cases hr : Proto.removesEntry s e i = true
      · obtain ⟨hpres, habs⟩ := removes_sound s e i hnd hr
        have hrun := absent_run tr _ i habs
        rw [if_pos hr, if_neg (by rintro ⟨h1, _⟩; rw [habs] at h1; cases h1),
          if_pos ⟨hpres, hrun⟩]
      · rw [Bool.not_eq_true] at hr
        have heq := not_removes_preserve s e i hguard hr
        rw [hr, heq]
        simp
    · intro h
      simp [Proto.responseReceived, h]

/-- Witness for C6: one pending entry whose timer fires (final, no
fragments buffered), followed by a late response that is silently
dropped; the entry is removed exactly once. -/
theorem pending_entry_removed_exactly_once_witness :
    Proto.removedCount ⟨[([1], [9])], []⟩
      [Proto.RpcEvent.timerFire [1], Proto.RpcEvent.respArrive [1]] [1] = 1 ∧
    Proto.responseReceived ⟨[], []⟩ [1] = (⟨[], []⟩, []) := by
  constructor
  · have h := (pending_entry_removed_exactly_once
      [Proto.RpcEvent.timerFire [1], Proto.RpcEvent.respArrive [1]]
      ⟨[([1], [9])], []⟩ [1] (by decide) (by decide)).1
    calc Proto.removedCount ⟨[([1], [9])], []⟩
          [Proto.RpcEvent.timerFire [1], Proto.RpcEvent.respArrive [1]] [1]
        = if (pyGet (Proto.ProtoState.mk [([1], [9])] []).sentMessages [1]).isSome = true ∧
            pyGet ((Proto.runEvents ⟨[([1], [9])], []⟩
              [Proto.RpcEvent.timerFire [1], Proto.RpcEvent.respArrive [1]]).sentMessages)
              [1] = none
          then 1 else 0 := h
      _ = 1 := by decide
  · exact (pending_entry_removed_exactly_once [] ⟨[], []⟩ [1] (by decide) (by decide)).2
      (by decide)

end Entangled
